import Mathlib

/-!
# onecache: the in-memory LRU engine (`memoryCache.go`)

A shallow embedding of `MemoryCache` and its three operations `Get`, `Set`
and `Clear`, followed by theorems about them.

Modelling conventions.

* A Go pointer to a `list.Element` is an address (`Element.addr`) together
  with the `Value` stored behind it; the engine never writes to an element
  after creating it, so carrying the payload with the address is exact.
  Addresses come from a counter (`MemoryCache.nextAddr`), so every
  `PushFront` yields an element distinct from all earlier ones.
* `container/list.List` is the sequence of its elements, front first.
* A Go `map[string]*list.Element` is an association list with at most one
  binding per key; the code never iterates over the map, so the order of the
  bindings is immaterial.
* A nil `*list.List` and a nil map are `none`.
* The `for` loop of `Set` is run with a fuel bound on its iterations.
* The `context.Context` argument is dropped: no method reads it.
* The mutex is not modelled: operations are applied one at a time.
-/

namespace onecache

/-- Go `interface{}` payloads: the nil interface or some dynamically typed datum. -/
inductive Iface where
  | nil
  | str (s : String)
  | num (n : Int)
deriving DecidableEq, Repr

/-- Go `error` results; `none` is the nil error. -/
abbrev error := Option String

/-- The struct `memoryCacheItem`. -/
structure memoryCacheItem where
  key : String
  value : Iface
deriving DecidableEq, Repr

/-- A `*list.Element`: its address and the `Value` it holds. -/
structure Element where
  addr : Nat
  Value : memoryCacheItem
deriving DecidableEq, Repr

/-- Implementations of the `Scheduler` interface: the default one or a caller-supplied one. -/
inductive Scheduler where
  | DefaultScheduler
  | custom (id : Nat)
deriving DecidableEq, Repr

/-- The struct `MemoryCache` (without its mutex), plus the element allocator. -/
structure MemoryCache where
  MaxItems : Int
  mostRecentlyRead : Option (List Element)
  elementsByKey : Option (List (String × Element))
  scheduler : Option Scheduler
  nextAddr : Nat
deriving DecidableEq, Repr

/-- How a call that contains a loop ends: it returns, it panics, or the fuel ran out. -/
inductive Outcome (α : Type) where
  | done (a : α)
  | panic
  | outOfFuel
deriving DecidableEq, Repr

/-! ## `container/list` -/

/-- Method `l.PushFront(v)`: a new element at address `addr`, in front. -/
def PushFront (l : List Element) (addr : Nat) (v : memoryCacheItem) : Element × List Element :=
  let e : Element := { addr := addr, Value := v }
  (e, e :: l)

/-- Test `e.list == l`: the element belongs to this list. -/
def inList (l : List Element) (e : Element) : Bool :=
  l.any (fun x => x.addr == e.addr)

/-- Method `l.Remove(e)`: unlink `e` when it belongs to `l`. -/
def Remove (l : List Element) (e : Element) : List Element :=
  if inList l e then l.filter (fun x => x.addr != e.addr) else l

/-- Method `l.MoveToFront(e)`: nothing when `e` is not in `l` or is already its front. -/
def MoveToFront (l : List Element) (e : Element) : List Element :=
  if !inList l e || l.head?.map Element.addr == some e.addr then l
  else e :: l.filter (fun x => x.addr != e.addr)

/-- Method `l.Back()`: the last element, `none` for an empty list. -/
def Back (l : List Element) : Option Element :=
  l.getLast?

/-! ## Go maps -/

/-- Read `m[key]` in its two-result form; reading a nil map misses. -/
def mapLookup (m : Option (List (String × Element))) (key : String) : Option Element :=
  match m with
  | none => none
  | some bs => bs.lookup key

/-- Length `len(m)`; a nil map has length 0. -/
def mapLen (m : Option (List (String × Element))) : Nat :=
  match m with
  | none => 0
  | some bs => bs.length

/-- Write `m[key] = e` on a non-nil map. -/
def mapStore (bs : List (String × Element)) (key : String) (e : Element) :
    List (String × Element) :=
  (key, e) :: bs.filter (fun p => p.1 != key)

/-- Builtin `delete(m, key)`; a no-op on a nil map. -/
def mapDelete (m : Option (List (String × Element))) (key : String) :
    Option (List (String × Element)) :=
  m.map (fun bs => bs.filter (fun p => p.1 != key))

/-! ## The engine -/

namespace MemoryCache

/-- The zero-valued engine `&MemoryCache{MaxItems: n}`. -/
def fresh (n : Int) : MemoryCache :=
  { MaxItems := n, mostRecentlyRead := none, elementsByKey := none,
    scheduler := none, nextAddr := 0 }

/-- Method `initIfNeeded`: replace each nil field by an empty structure. -/
def initIfNeeded (c : MemoryCache) : MemoryCache :=
  let c := if c.mostRecentlyRead = none then { c with mostRecentlyRead := some [] } else c
  let c := if c.elementsByKey = none then { c with elementsByKey := some [] } else c
  let c := if c.scheduler = none then { c with scheduler := some Scheduler.DefaultScheduler } else c
  c

/-- Method `Get`: look the key up; on a hit move its element to the front. -/
def Get (c : MemoryCache) (key : String) : (Iface × Bool × error) × MemoryCache :=
  let c := initIfNeeded c
  match mapLookup c.elementsByKey key with
  | none => ((Iface.nil, false, none), c)
  | some elmt =>
    let item := elmt.Value
    let c := { c with mostRecentlyRead := c.mostRecentlyRead.map (fun l => MoveToFront l elmt) }
    ((item.value, true, none), c)

/-- Method `clearWhenLocked`: remove the element of the key from the list and the key from the map. -/
def clearWhenLocked (c : MemoryCache) (key : String) : (Bool × error) × MemoryCache :=
  match mapLookup c.elementsByKey key with
  | none => ((false, none), c)
  | some elmt =>
    let c := { c with mostRecentlyRead := c.mostRecentlyRead.map (fun l => Remove l elmt) }
    let c := { c with elementsByKey := mapDelete c.elementsByKey key }
    ((true, none), c)

/-- Method `Clear`: initialise, then `clearWhenLocked`. -/
def Clear (c : MemoryCache) (key : String) : (Bool × error) × MemoryCache :=
  let c := initIfNeeded c
  clearWhenLocked c key

/-- The condition of the eviction loop of `Set`. -/
def overCapacity (c : MemoryCache) : Bool :=
  decide (c.MaxItems > 0) && decide ((mapLen c.elementsByKey : Int) > c.MaxItems)

/-- One run of the body of the eviction loop: `Back()` of a nil or empty list is a nil
dereference. -/
def evictStep (c : MemoryCache) : Option MemoryCache :=
  match c.mostRecentlyRead.bind Back with
  | none => none
  | some oldest =>
    let oldestItem := oldest.Value
    some (clearWhenLocked c oldestItem.key).2

/-- The eviction loop of `Set`, at most `fuel` iterations. -/
def evictLoop : Nat → MemoryCache → Outcome MemoryCache
  | 0, c => if overCapacity c then Outcome.outOfFuel else Outcome.done c
  | fuel + 1, c =>
    if overCapacity c then
      match evictStep c with
      | none => Outcome.panic
      | some c1 => evictLoop fuel c1
    else Outcome.done c

/-- Method `Set`: push a new element in front, point the map at it, then evict while over
capacity. `expireAfter` is not read. -/
def Set (fuel : Nat) (c : MemoryCache) (key : String) (val : Iface) (_expireAfter : Int) :
    Outcome (error × MemoryCache) :=
  let c := initIfNeeded c
  match c.mostRecentlyRead, c.elementsByKey with
  | some l, some bs =>
    let item : memoryCacheItem := { key := key, value := val }
    let (elmt, l1) := PushFront l c.nextAddr item
    let c := { c with mostRecentlyRead := some l1, nextAddr := c.nextAddr + 1 }
    let c := { c with elementsByKey := some (mapStore bs key elmt) }
    match evictLoop fuel c with
    | Outcome.done c1 => Outcome.done (none, c1)
    | Outcome.panic => Outcome.panic
    | Outcome.outOfFuel => Outcome.outOfFuel
  | _, _ => Outcome.panic

end MemoryCache

/-! ## Call sequences -/

/-- One call of the `Cache` interface. -/
inductive Call where
  | Get (key : String)
  | Set (key : String) (val : Iface) (expireAfter : Int)
  | Clear (key : String)
deriving DecidableEq, Repr

/-- The engine after one call. -/
def applyCall (fuel : Nat) (c : MemoryCache) : Call → Outcome MemoryCache
  | Call.Get key => Outcome.done (c.Get key).2
  | Call.Set key val expireAfter =>
    match c.Set fuel key val expireAfter with
    | Outcome.done r => Outcome.done r.2
    | Outcome.panic => Outcome.panic
    | Outcome.outOfFuel => Outcome.outOfFuel
  | Call.Clear key => Outcome.done (c.Clear key).2

/-- The engine after a sequence of calls, each `Set` with the given fuel. -/
def run (fuel : Nat) : MemoryCache → List Call → Outcome MemoryCache
  | c, [] => Outcome.done c
  | c, call :: rest =>
    match applyCall fuel c call with
    | Outcome.done c1 => run fuel c1 rest
    | Outcome.panic => Outcome.panic
    | Outcome.outOfFuel => Outcome.outOfFuel

/-- States the engine can be in between calls: those left by a sequence of calls, all of
which returned, on a zero-valued engine. -/
def Reachable (c : MemoryCache) : Prop :=
  ∃ (n : Int) (fuel : Nat) (calls : List Call), run fuel (MemoryCache.fresh n) calls = Outcome.done c

/-! ## Views of the state used in the statements -/

/-- The recency list, front first (empty for a nil list). -/
def elems (c : MemoryCache) : List Element := c.mostRecentlyRead.getD []

/-- The bindings of the key index (none for a nil map). -/
def index (c : MemoryCache) : List (String × Element) := c.elementsByKey.getD []

/-- All three lazily created fields are non-nil. -/
def initialised (c : MemoryCache) : Prop :=
  c.mostRecentlyRead ≠ none ∧ c.elementsByKey ≠ none ∧ c.scheduler ≠ none

/-- The engine of `Set` just before its eviction loop: the new element is in front of the
list and the map points at it. -/
def afterInsert (c : MemoryCache) (key : String) (val : Iface) : MemoryCache :=
  let c0 := MemoryCache.initIfNeeded c
  let elmt : Element := { addr := c0.nextAddr, Value := { key := key, value := val } }
  { c0 with
    mostRecentlyRead := some (elmt :: elems c0),
    nextAddr := c0.nextAddr + 1,
    elementsByKey := some (mapStore (index c0) key elmt) }

/-- The calls `Set(k, v, d)` for a list of triples. -/
def setCalls (kvs : List (String × Iface × Int)) : List Call :=
  kvs.map (fun t => Call.Set t.1 t.2.1 t.2.2)

/-! ## Call traces and states used in the evaluations below -/

/-- Overwrite `a`, then add `b`, on an engine bounded to one item. -/
def overwriteThenAdd : List Call :=
  [Call.Set "a" (Iface.str "A1") 0, Call.Set "a" (Iface.str "A2") 0,
   Call.Set "b" (Iface.str "B") 0]

/-- The engine left by `overwriteThenAdd` with `MaxItems = 1`: `b` is the only key, and the
element of the first `Set` of `a` is still the back of the list. -/
def staleTail : MemoryCache :=
  { MaxItems := 1,
    mostRecentlyRead := some [{ addr := 2, Value := { key := "b", value := Iface.str "B" } },
                              { addr := 0, Value := { key := "a", value := Iface.str "A1" } }],
    elementsByKey := some [("b", { addr := 2, Value := { key := "b", value := Iface.str "B" } })],
    scheduler := some Scheduler.DefaultScheduler,
    nextAddr := 3 }

/-- Overwrite `a`, add `b`, read `a`: afterwards `b` is the least recently touched key. -/
def overwriteThenRead : List Call :=
  [Call.Set "a" (Iface.str "A1") 0, Call.Set "a" (Iface.str "A2") 0,
   Call.Set "b" (Iface.str "B") 0, Call.Get "a"]

/-- Add `y`, set `x` twice, add `z`, read `x`: the touch order, oldest first, is `y`, `z`, `x`. -/
def threeKeysOneOverwritten : List Call :=
  [Call.Set "y" (Iface.str "Y") 0, Call.Set "x" (Iface.str "X1") 0,
   Call.Set "x" (Iface.str "X2") 0, Call.Set "z" (Iface.str "Z") 0, Call.Get "x"]

/-- A bounded engine holding `a` and `b`, with `MaxItems = 2`. -/
def twoItems : MemoryCache :=
  { MaxItems := 2,
    mostRecentlyRead := some [{ addr := 1, Value := { key := "b", value := Iface.str "B" } },
                              { addr := 0, Value := { key := "a", value := Iface.nil } }],
    elementsByKey := some [("b", { addr := 1, Value := { key := "b", value := Iface.str "B" } }),
                           ("a", { addr := 0, Value := { key := "a", value := Iface.nil } })],
    scheduler := some Scheduler.DefaultScheduler,
    nextAddr := 2 }

/-- The `Set` calls of `overwriteThenAdd` as key, value and expiry triples. -/
def overwriteThenAddSets : List (String × Iface × Int) :=
  [("a", Iface.str "A1", 0), ("a", Iface.str "A2", 0), ("b", Iface.str "B", 0)]

/-- The `Set` calls of `overwriteThenAdd` followed by a `Set` of the new key `c`. -/
def overwriteThenAddTwice : List (String × Iface × Int) :=
  overwriteThenAddSets ++ [("c", Iface.str "C", 0)]

/-- Calls that read and clear `a` but set only other keys. -/
def neverSetsA : List Call :=
  [Call.Get "a", Call.Set "b" (Iface.str "B") 0, Call.Clear "a", Call.Set "c" Iface.nil 5]

/-- The engine left by `neverSetsA` with `MaxItems = 1`. -/
def afterNeverSetsA : MemoryCache :=
  { MaxItems := 1,
    mostRecentlyRead := some [{ addr := 1, Value := { key := "c", value := Iface.nil } }],
    elementsByKey := some [("c", { addr := 1, Value := { key := "c", value := Iface.nil } })],
    scheduler := some Scheduler.DefaultScheduler,
    nextAddr := 2 }


/-! ## Histories of calls -/

/-- The value most recently given to each key by a `Set`, after one more call. -/
def recordSet (h : String → Option Iface) : Call → String → Option Iface
  | Call.Set j v _ => fun k => if k = j then some v else h k
  | Call.Get _ => h
  | Call.Clear _ => h

/-- The value of the most recent `Set` of each key in a sequence of calls, if any. -/
def lastSet (calls : List Call) : String → Option Iface :=
  calls.foldl recordSet (fun _ => none)

/-- The call is not a `Clear`. -/
def Call.notClear : Call → Bool
  | Call.Clear _ => false
  | _ => true

/-- The same call with its `expireAfter` argument replaced by 0. -/
def eraseExpiry : Call → Call
  | Call.Set k v _ => Call.Set k v 0
  | call => call

/-- What `Get` is to return for a key whose most recent `Set`, if any, is known. -/
def expectedGet : Option Iface → Iface × Bool × error
  | some v => (v, true, none)
  | none => (Iface.nil, false, none)

/-- Two reads and three writes, with and without expiry, and no `Clear`. -/
def readsAndWrites : List Call :=
  [Call.Get "a", Call.Set "a" (Iface.str "A1") 0, Call.Set "b" Iface.nil 7,
   Call.Set "a" (Iface.num 2) 0, Call.Get "b"]

/-! ## The invariant of reachable states -/

/-- What holds between calls: list elements have distinct addresses, all below the
allocator, and the element the index gives for a key is the first element of the list
that carries this key. -/
def Inv (c : MemoryCache) : Prop :=
  ((elems c).map Element.addr).Nodup ∧
  (∀ e ∈ elems c, e.addr < c.nextAddr) ∧
  (∀ k e, (index c).lookup k = some e →
    (elems c).find? (fun x => x.Value.key == k) = some e)

/-- The engine after `m` further iterations of the eviction loop, when the loop does run
that many times without a nil dereference. -/
def evictIter : Nat → MemoryCache → Option MemoryCache
  | 0, c => some c
  | m + 1, c =>
    if MemoryCache.overCapacity c then (MemoryCache.evictStep c).bind (evictIter m) else none

/-- Fill an engine bounded to two items, read the older key, then add a third key. -/
def fillAndRead : List Call :=
  [Call.Set "a" (Iface.str "A") 0, Call.Set "b" (Iface.str "B") 0, Call.Get "a",
   Call.Set "c" (Iface.str "C") 0]

/-- The engine left by `fillAndRead` with `MaxItems = 2`: `b` was evicted. -/
def afterFillAndRead : MemoryCache :=
  { MaxItems := 2,
    mostRecentlyRead := some [{ addr := 2, Value := { key := "c", value := Iface.str "C" } },
                              { addr := 0, Value := { key := "a", value := Iface.str "A" } }],
    elementsByKey := some [("c", { addr := 2, Value := { key := "c", value := Iface.str "C" } }),
                           ("a", { addr := 0, Value := { key := "a", value := Iface.str "A" } })],
    scheduler := some Scheduler.DefaultScheduler,
    nextAddr := 3 }

/-! ## What calls return, and the reference LRU -/

/-- What one call of the `Cache` interface returns. -/
inductive Ret where
  | Get (value : Iface) (found : Bool) (err : error)
  | Set (err : error)
  | Clear (existed : Bool) (err : error)
deriving DecidableEq, Repr

/-- One call on the engine: what it returns and the engine it leaves. -/
def callRet (fuel : Nat) (c : MemoryCache) : Call → Outcome (Ret × MemoryCache)
  | Call.Get key =>
    Outcome.done (Ret.Get (c.Get key).1.1 (c.Get key).1.2.1 (c.Get key).1.2.2, (c.Get key).2)
  | Call.Set key val expireAfter =>
    match c.Set fuel key val expireAfter with
    | Outcome.done r => Outcome.done (Ret.Set r.1, r.2)
    | Outcome.panic => Outcome.panic
    | Outcome.outOfFuel => Outcome.outOfFuel
  | Call.Clear key =>
    Outcome.done (Ret.Clear (c.Clear key).1.1 (c.Clear key).1.2, (c.Clear key).2)

/-- What the calls of a sequence return, in order, if all of them return. -/
def runRets (fuel : Nat) : MemoryCache → List Call → Outcome (List Ret)
  | _, [] => Outcome.done []
  | c, call :: rest =>
    match callRet fuel c call with
    | Outcome.done (r, c1) =>
      match runRets fuel c1 rest with
      | Outcome.done rs => Outcome.done (r :: rs)
      | Outcome.panic => Outcome.panic
      | Outcome.outOfFuel => Outcome.outOfFuel
    | Outcome.panic => Outcome.panic
    | Outcome.outOfFuel => Outcome.outOfFuel

/-- No `Set` of the sequence is applied to a key that `Get` would find at that moment. -/
def noOverwrite (fuel : Nat) : MemoryCache → List Call → Bool
  | _, [] => true
  | c, call :: rest =>
    (match call with
      | Call.Set key _ _ => !(c.Get key).1.2.1
      | _ => true) &&
    (match applyCall fuel c call with
      | Outcome.done c1 => noOverwrite fuel c1 rest
      | _ => true)

/-- The state of the reference LRU: key and value pairs, most recently touched first. -/
abbrev RefLRU := List (String × Iface)

/-- Reference `Get`: a hit moves the pair to the front. -/
def refGet (m : RefLRU) (k : String) : Ret × RefLRU :=
  match m.lookup k with
  | none => (Ret.Get Iface.nil false none, m)
  | some v => (Ret.Get v true none, (k, v) :: m.filter (fun p => p.1 != k))

/-- Reference eviction: drop pairs from the back while the length exceeds `N > 0`; the
first argument bounds the number of drops and is the length of the list. -/
def refTrim (N : Int) : Nat → RefLRU → RefLRU
  | 0, m => m
  | bound + 1, m =>
    if 0 < N ∧ (m.length : Int) > N then refTrim N bound m.dropLast else m

/-- Reference `Set`: insert at the front, then evict from the back. -/
def refSet (N : Int) (m : RefLRU) (k : String) (v : Iface) : Ret × RefLRU :=
  (Ret.Set none, refTrim N ((k, v) :: m).length ((k, v) :: m))

/-- Reference `Clear`: delete the key, reporting whether it was there. -/
def refClear (m : RefLRU) (k : String) : Ret × RefLRU :=
  (Ret.Clear (m.lookup k).isSome none, m.filter (fun p => p.1 != k))

/-- One call on the reference LRU. -/
def refCall (N : Int) (m : RefLRU) : Call → Ret × RefLRU
  | Call.Get key => refGet m key
  | Call.Set key val _ => refSet N m key val
  | Call.Clear key => refClear m key

/-- What the calls of a sequence return on the reference LRU. -/
def refRun (N : Int) : RefLRU → List Call → List Ret
  | _, [] => []
  | m, call :: rest => (refCall N m call).1 :: refRun N (refCall N m call).2 rest

/-- The reference state an engine stands for: the items of its recency list. -/
def items (c : MemoryCache) : RefLRU :=
  (elems c).map (fun e => (e.Value.key, e.Value.value))

/-- An engine without superseded elements: list elements have distinct keys and distinct
addresses below the allocator, and the index binds each key of the list to its element. -/
def NoStale (c : MemoryCache) : Prop :=
  ((elems c).map (fun e => e.Value.key)).Nodup ∧
  ((elems c).map Element.addr).Nodup ∧
  (∀ e ∈ elems c, e.addr < c.nextAddr) ∧
  List.Perm (index c) ((elems c).map (fun e => (e.Value.key, e)))

/-- An engine with `MaxItems = N`, without superseded elements, and within its bound when
it is bounded. -/
def WF (N : Int) (c : MemoryCache) : Prop :=
  c.MaxItems = N ∧ NoStale c ∧ (0 < N → ((elems c).length : Int) ≤ N)

/-- The calls of `TestMemoryCache_Capacity`, without the repeated reads. -/
def capacityTest : List Call :=
  [Call.Set "a" (Iface.str "A") 0, Call.Set "b" (Iface.str "B") 0,
   Call.Set "c" (Iface.str "C") 0, Call.Get "a", Call.Get "b", Call.Get "a", Call.Get "b",
   Call.Get "c", Call.Get "a", Call.Get "c", Call.Set "d" (Iface.str "D") 0, Call.Get "b",
   Call.Get "c", Call.Get "d", Call.Get "a", Call.Set "b" (Iface.str "B") 0,
   Call.Set "e" (Iface.str "E") 0, Call.Get "c", Call.Clear "d", Call.Clear "a", Call.Get "e"]


/-! ## Lemmas on maps, initialisation, `Get` and `Clear` -/

open MemoryCache

theorem lookup_filter_ne (bs : List (String × Element)) (k j : String) :
    (bs.filter (fun p => p.1 != k)).lookup j = if j = k then none else bs.lookup j := by
  induction bs with
  | nil => simp
  | cons p bs ih =>
    obtain ⟨a, e⟩ := p
    by_cases hak : a = k
    · have h1 : (a != k) = false := by simpa using hak
      have hf : List.filter (fun p => p.1 != k) ((a, e) :: bs)
          = List.filter (fun p => p.1 != k) bs := by
        rw [List.filter_cons]; simp [hak]
      rw [hf, ih]
      by_cases hjk : j = k
      · simp [hjk]
      · have h2 : (j == a) = false := by simpa [hak] using hjk
        simp [hjk, List.lookup_cons, h2]
    · have h1 : (a != k) = true := by simpa using hak
      have hf : List.filter (fun p => p.1 != k) ((a, e) :: bs)
          = (a, e) :: List.filter (fun p => p.1 != k) bs := by
        rw [List.filter_cons]; simp [hak]
      rw [hf, List.lookup_cons, List.lookup_cons, ih]
      by_cases hja : j = a
      · subst hja
        simp [hak]
      · have h2 : (j == a) = false := by simpa using hja
        simp [h2]

theorem mapLookup_initIfNeeded (c : MemoryCache) (k : String) :
    mapLookup (initIfNeeded c).elementsByKey k = mapLookup c.elementsByKey k := by
  unfold initIfNeeded
  cases h1 : c.mostRecentlyRead <;> cases h2 : c.elementsByKey <;> cases h3 : c.scheduler <;>
    simp [mapLookup, h1, h2, h3]

theorem mapLookup_mapDelete (m : Option (List (String × Element))) (k j : String) :
    mapLookup (mapDelete m k) j = if j = k then none else mapLookup m j := by
  cases m with
  | none => simp [mapLookup, mapDelete]
  | some bs => simp [mapLookup, mapDelete, lookup_filter_ne]

theorem Get_fst (c : MemoryCache) (k : String) :
    (c.Get k).1 = match mapLookup c.elementsByKey k with
      | none => (Iface.nil, false, none)
      | some e => (e.Value.value, true, none) := by
  unfold MemoryCache.Get
  simp only [mapLookup_initIfNeeded]
  cases mapLookup c.elementsByKey k <;> rfl

theorem Get_found_iff (c : MemoryCache) (k : String) :
    (c.Get k).1.2.1 = true ↔ ∃ e, mapLookup c.elementsByKey k = some e := by
  rw [Get_fst]
  cases mapLookup c.elementsByKey k <;> simp

theorem clearWhenLocked_fst (c : MemoryCache) (k : String) :
    (clearWhenLocked c k).1 = ((mapLookup c.elementsByKey k).isSome, none) := by
  unfold clearWhenLocked
  cases mapLookup c.elementsByKey k <;> rfl

theorem clearWhenLocked_lookup (c : MemoryCache) (k j : String) :
    mapLookup (clearWhenLocked c k).2.elementsByKey j
      = if j = k then none else mapLookup c.elementsByKey j := by
  unfold clearWhenLocked
  cases h : mapLookup c.elementsByKey k with
  | none =>
    by_cases hjk : j = k
    · simp [hjk, h]
    · simp [hjk]
  | some e => simp [mapLookup_mapDelete]

theorem clearWhenLocked_absent (c : MemoryCache) (k : String)
    (h : mapLookup c.elementsByKey k = none) : clearWhenLocked c k = ((false, none), c) := by
  unfold clearWhenLocked
  rw [h]

theorem Clear_fst (c : MemoryCache) (k : String) :
    (c.Clear k).1 = ((mapLookup c.elementsByKey k).isSome, none) := by
  unfold MemoryCache.Clear
  simp only [clearWhenLocked_fst, mapLookup_initIfNeeded]

theorem Clear_lookup (c : MemoryCache) (k j : String) :
    mapLookup (c.Clear k).2.elementsByKey j
      = if j = k then none else mapLookup c.elementsByKey j := by
  unfold MemoryCache.Clear
  simp only [clearWhenLocked_lookup, mapLookup_initIfNeeded]

theorem initialised_initIfNeeded (c : MemoryCache) : initialised (initIfNeeded c) := by
  unfold initIfNeeded initialised
  cases h1 : c.mostRecentlyRead <;> cases h2 : c.elementsByKey <;> cases h3 : c.scheduler <;>
    simp [h1, h2, h3]

theorem initIfNeeded_of_initialised (c : MemoryCache) (h : initialised c) :
    initIfNeeded c = c := by
  obtain ⟨h1, h2, h3⟩ := h
  unfold initIfNeeded
  simp [h1, h2, h3]

theorem initialised_clearWhenLocked (c : MemoryCache) (k : String) (h : initialised c) :
    initialised (clearWhenLocked c k).2 := by
  obtain ⟨h1, h2, h3⟩ := h
  unfold clearWhenLocked
  cases mapLookup c.elementsByKey k with
  | none => exact ⟨h1, h2, h3⟩
  | some e =>
    refine ⟨?_, ?_, h3⟩
    · cases hl : c.mostRecentlyRead with
      | none => exact absurd hl h1
      | some l => simp [hl]
    · cases hm : c.elementsByKey with
      | none => exact absurd hm h2
      | some m => simp [hm, mapDelete]

theorem initialised_Clear (c : MemoryCache) (k : String) : initialised (c.Clear k).2 :=
  initialised_clearWhenLocked _ k (initialised_initIfNeeded c)

theorem elems_initIfNeeded (c : MemoryCache) : elems (initIfNeeded c) = elems c := by
  unfold initIfNeeded elems
  cases h1 : c.mostRecentlyRead <;> cases h2 : c.elementsByKey <;> cases h3 : c.scheduler <;>
    simp [h1, h2, h3]

theorem index_initIfNeeded (c : MemoryCache) : index (initIfNeeded c) = index c := by
  unfold initIfNeeded index
  cases h1 : c.mostRecentlyRead <;> cases h2 : c.elementsByKey <;> cases h3 : c.scheduler <;>
    simp [h1, h2, h3]

/-! ## Lemmas on `Set`, its eviction loop, and call sequences -/

theorem mostRecentlyRead_initIfNeeded (c : MemoryCache) :
    (initIfNeeded c).mostRecentlyRead = some (elems (initIfNeeded c)) := by
  unfold initIfNeeded elems
  cases h1 : c.mostRecentlyRead <;> cases h2 : c.elementsByKey <;> cases h3 : c.scheduler <;>
    simp [h1, h2, h3]

theorem elementsByKey_initIfNeeded (c : MemoryCache) :
    (initIfNeeded c).elementsByKey = some (index (initIfNeeded c)) := by
  unfold initIfNeeded index
  cases h1 : c.mostRecentlyRead <;> cases h2 : c.elementsByKey <;> cases h3 : c.scheduler <;>
    simp [h1, h2, h3]

theorem MaxItems_initIfNeeded (c : MemoryCache) : (initIfNeeded c).MaxItems = c.MaxItems := by
  unfold initIfNeeded
  cases h1 : c.mostRecentlyRead <;> cases h2 : c.elementsByKey <;> cases h3 : c.scheduler <;>
    simp [h1, h2, h3]

/-- The method `Set` is the insertion followed by the eviction loop. -/
theorem Set_eq (fuel : Nat) (c : MemoryCache) (k : String) (v : Iface) (d : Int) :
    c.Set fuel k v d = match evictLoop fuel (afterInsert c k v) with
      | Outcome.done c1 => Outcome.done (none, c1)
      | Outcome.panic => Outcome.panic
      | Outcome.outOfFuel => Outcome.outOfFuel := by
  unfold MemoryCache.Set afterInsert
  simp only [mostRecentlyRead_initIfNeeded c, elementsByKey_initIfNeeded c, PushFront]

theorem Set_done (fuel : Nat) (c : MemoryCache) (k : String) (v : Iface) (d : Int)
    (r : error × MemoryCache) (h : c.Set fuel k v d = Outcome.done r) :
    r.1 = none ∧ evictLoop fuel (afterInsert c k v) = Outcome.done r.2 := by
  rw [Set_eq] at h
  cases hl : evictLoop fuel (afterInsert c k v) with
  | done c1 =>
    rw [hl] at h
    simp only [Outcome.done.injEq] at h
    subst h
    exact ⟨rfl, rfl⟩
  | panic => rw [hl] at h; cases h
  | outOfFuel => rw [hl] at h; cases h

/-- Whatever every `clearWhenLocked` preserves holds when the eviction loop returns, and
the loop returns only once the engine is no longer over capacity. -/
theorem evictLoop_done (P : MemoryCache → Prop)
    (hstep : ∀ c key, P c → P (clearWhenLocked c key).2) :
    ∀ (fuel : Nat) (c c1 : MemoryCache), evictLoop fuel c = Outcome.done c1 → P c →
      P c1 ∧ overCapacity c1 = false := by
  intro fuel
  induction fuel with
  | zero =>
    intro c c1 h hP
    unfold evictLoop at h
    cases hc : overCapacity c with
    | true => simp [hc] at h
    | false =>
      simp [hc] at h
      subst h
      exact ⟨hP, hc⟩
  | succ n ih =>
    intro c c1 h hP
    unfold evictLoop at h
    cases hc : overCapacity c with
    | false =>
      simp [hc] at h
      subst h
      exact ⟨hP, hc⟩
    | true =>
      simp only [hc, if_true] at h
      cases hs : evictStep c with
      | none => simp [hs] at h
      | some c2 =>
        simp only [hs] at h
        have hP2 : P c2 := by
          unfold evictStep at hs
          cases hb : c.mostRecentlyRead.bind Back with
          | none => simp [hb] at hs
          | some oldest =>
            simp only [hb, Option.some.injEq] at hs
            subst hs
            exact hstep c _ hP
        exact ih c2 c1 h hP2

/-- The loop that cannot make progress never returns: when the engine is over capacity and
the loop body leaves it as it is, every fuel is exhausted. -/
theorem evictLoop_stuck (c : MemoryCache) (hover : overCapacity c = true)
    (hfix : evictStep c = some c) : ∀ fuel : Nat, evictLoop fuel c = Outcome.outOfFuel := by
  intro fuel
  induction fuel with
  | zero => simp [evictLoop, hover]
  | succ n ih => simp [evictLoop, hover, hfix, ih]

/-- An invariant of every admissible call is an invariant of a sequence of them. -/
theorem run_invariant (P : MemoryCache → Prop) (Q : Call → Prop) (fuel : Nat)
    (hcall : ∀ c call c1, Q call → P c → applyCall fuel c call = Outcome.done c1 → P c1) :
    ∀ (calls : List Call) (c c1 : MemoryCache), (∀ call ∈ calls, Q call) → P c →
      run fuel c calls = Outcome.done c1 → P c1 := by
  intro calls
  induction calls with
  | nil =>
    intro c c1 _ hP h
    simp only [run, Outcome.done.injEq] at h
    subst h
    exact hP
  | cons call rest ih =>
    intro c c1 hQ hP h
    unfold run at h
    cases ha : applyCall fuel c call with
    | done c2 =>
      simp only [ha] at h
      exact ih c2 c1 (fun x hx => hQ x (List.mem_cons_of_mem _ hx))
        (hcall c call c2 (hQ call (List.mem_cons_self _ _)) hP ha) h
    | panic => simp [ha] at h
    | outOfFuel => simp [ha] at h

theorem applyCall_Set_done (fuel : Nat) (c c1 : MemoryCache) (k : String) (v : Iface) (d : Int)
    (h : applyCall fuel c (Call.Set k v d) = Outcome.done c1) :
    evictLoop fuel (afterInsert c k v) = Outcome.done c1 := by
  unfold applyCall at h
  cases hs : c.Set fuel k v d with
  | done r =>
    simp only [hs, Outcome.done.injEq] at h
    subst h
    exact (Set_done fuel c k v d r hs).2
  | panic => simp [hs] at h
  | outOfFuel => simp [hs] at h

/-! ## What calls do to the key index -/

theorem lookup_mapStore (bs : List (String × Element)) (j k : String) (e : Element) :
    (mapStore bs j e).lookup k = if k = j then some e else bs.lookup k := by
  unfold mapStore
  rw [List.lookup_cons, lookup_filter_ne]
  by_cases hkj : k = j
  · subst hkj
    simp
  · have h2 : (k == j) = false := by simpa using hkj
    simp [h2, hkj]

theorem mapLookup_afterInsert (c : MemoryCache) (j k : String) (v : Iface) :
    mapLookup (afterInsert c j v).elementsByKey k
      = if k = j then some { addr := (initIfNeeded c).nextAddr, Value := { key := j, value := v } }
        else mapLookup c.elementsByKey k := by
  rw [← mapLookup_initIfNeeded c k, elementsByKey_initIfNeeded c]
  simp only [afterInsert, mapLookup, lookup_mapStore]

theorem Get_elementsByKey (c : MemoryCache) (k : String) :
    (c.Get k).2.elementsByKey = (initIfNeeded c).elementsByKey := by
  unfold MemoryCache.Get
  dsimp only
  split <;> rfl

theorem Get_MaxItems (c : MemoryCache) (k : String) : (c.Get k).2.MaxItems = c.MaxItems := by
  unfold MemoryCache.Get
  dsimp only
  split <;> exact MaxItems_initIfNeeded c

theorem clearWhenLocked_MaxItems (c : MemoryCache) (k : String) :
    (clearWhenLocked c k).2.MaxItems = c.MaxItems := by
  unfold clearWhenLocked
  cases mapLookup c.elementsByKey k <;> rfl

theorem Clear_MaxItems (c : MemoryCache) (k : String) : (c.Clear k).2.MaxItems = c.MaxItems := by
  unfold MemoryCache.Clear
  rw [clearWhenLocked_MaxItems, MaxItems_initIfNeeded]

theorem afterInsert_MaxItems (c : MemoryCache) (k : String) (v : Iface) :
    (afterInsert c k v).MaxItems = c.MaxItems := by
  simp [afterInsert, MaxItems_initIfNeeded]

theorem mapLen_initIfNeeded (c : MemoryCache) :
    mapLen (initIfNeeded c).elementsByKey = mapLen c.elementsByKey := by
  unfold initIfNeeded
  cases h1 : c.mostRecentlyRead <;> cases h2 : c.elementsByKey <;> cases h3 : c.scheduler <;>
    simp [h1, h2, h3, mapLen]

theorem mapLen_clearWhenLocked_le (c : MemoryCache) (k : String) :
    mapLen (clearWhenLocked c k).2.elementsByKey ≤ mapLen c.elementsByKey := by
  unfold clearWhenLocked
  cases mapLookup c.elementsByKey k with
  | none => exact le_refl _
  | some e =>
    cases hm : c.elementsByKey with
    | none => simp [hm, mapDelete, mapLen]
    | some bs =>
      simp only [hm, mapDelete, mapLen, Option.map_some']
      exact List.length_filter_le _ _

/-- A key that is looked up successfully is among the keys of the bindings, and conversely. -/
theorem lookup_isSome_iff (bs : List (String × Element)) (k : String) :
    (∃ e, bs.lookup k = some e) ↔ k ∈ bs.map Prod.fst := by
  induction bs with
  | nil => simp
  | cons p bs ih =>
    obtain ⟨a, e⟩ := p
    rw [List.lookup_cons]
    by_cases hka : k = a
    · subst hka
      simp
    · have h2 : (k == a) = false := by simpa using hka
      simp only [h2, List.map_cons, List.mem_cons, hka, false_or]
      exact ih

theorem Get_found_iff_mem (c : MemoryCache) (k : String) :
    (c.Get k).1.2.1 = true ↔ k ∈ (index c).map Prod.fst := by
  rw [Get_found_iff, ← lookup_isSome_iff]
  unfold mapLookup index
  cases c.elementsByKey <;> simp

theorem mapLen_eq_index (c : MemoryCache) : mapLen c.elementsByKey = (index c).length := by
  unfold mapLen index
  cases c.elementsByKey <;> rfl

/-- Between calls a bounded engine holds at most `MaxItems` bindings. -/
theorem mapLen_le_of_run (N : Int) (hN : 0 < N) (fuel : Nat) (calls : List Call)
    (c : MemoryCache) (h : run fuel (fresh N) calls = Outcome.done c) :
    c.MaxItems = N ∧ (mapLen c.elementsByKey : Int) ≤ N := by
  refine run_invariant (fun c => c.MaxItems = N ∧ (mapLen c.elementsByKey : Int) ≤ N)
    (fun _ => True) fuel ?_ calls (fresh N) c (fun _ _ => trivial) ?_ h
  · intro c0 call c1 _ hP ha
    obtain ⟨hM, hL⟩ := hP
    cases call with
    | Get key =>
      simp only [applyCall, Outcome.done.injEq] at ha
      subst ha
      rw [Get_MaxItems, Get_elementsByKey, mapLen_initIfNeeded]
      exact ⟨hM, hL⟩
    | Clear key =>
      simp only [applyCall, Outcome.done.injEq] at ha
      subst ha
      refine ⟨by rw [Clear_MaxItems]; exact hM, ?_⟩
      have h1 := mapLen_clearWhenLocked_le (initIfNeeded c0) key
      rw [mapLen_initIfNeeded] at h1
      have h2 : ((mapLen (c0.Clear key).2.elementsByKey : Nat) : Int) ≤ mapLen c0.elementsByKey := by
        exact_mod_cast h1
      exact le_trans h2 hL
    | Set key val d =>
      have hl := applyCall_Set_done fuel c0 c1 key val d ha
      have hd := evictLoop_done (fun c => c.MaxItems = N)
        (fun c k hc => (clearWhenLocked_MaxItems c k).trans hc) fuel _ c1 hl
        ((afterInsert_MaxItems c0 key val).trans hM)
      obtain ⟨hM1, hover⟩ := hd
      refine ⟨hM1, ?_⟩
      unfold overCapacity at hover
      rw [hM1] at hover
      simp only [hN, decide_True, Bool.true_and, decide_eq_false_iff_not, not_lt] at hover
      simpa using hover
  · exact ⟨rfl, by simpa [fresh, mapLen] using le_of_lt hN⟩

/-! ## The claims -/

/-- C1. Round trip, evaluated where it fails: on an engine with `MaxItems = 1`, after
`Set a`, `Set a`, `Set b` (all of which return), `Set(a, "A3", 0)` returns, and the `Get(a)`
that follows reports `(nil, false)` instead of `("A3", true)`. -/
theorem C1_round_trip_lost_after_overwrite (fuel : Nat) :
    ∃ c c1, run (fuel + 1) (fresh 1) overwriteThenAdd = Outcome.done c ∧
      c.Set (fuel + 1) "a" (Iface.str "A3") 0 = Outcome.done (none, c1) ∧
      (c1.Get "a").1 = (Iface.nil, false, none) := by
  cases fuel <;> exact ⟨staleTail, { staleTail with nextAddr := 4 }, rfl, rfl, rfl⟩

/-- C2. LRU eviction order, evaluated where it fails: on an engine with `MaxItems = 2`,
after `Set a`, `Set a`, `Set b`, `Get a` exactly the keys `a` and `b` are present and `b` is
the one touched longest ago; `Set(c, "C", 0)` then evicts `a` and keeps `b`. -/
theorem C2_evicts_most_recent_after_overwrite (fuel : Nat) :
    ∃ c c1, run (fuel + 1) (fresh 2) overwriteThenRead = Outcome.done c ∧
      (index c).map Prod.fst = ["b", "a"] ∧
      c.Set (fuel + 1) "c" (Iface.str "C") 0 = Outcome.done (none, c1) ∧
      (c1.Get "a").1 = (Iface.nil, false, none) ∧
      (c1.Get "b").1 = (Iface.str "B", true, none) ∧
      (c1.Get "c").1 = (Iface.str "C", true, none) := by
  cases fuel <;>
    exact ⟨_, _, rfl, rfl, rfl, rfl, rfl, rfl⟩

/-- A sequence of calls in two parts: the second part runs from where the first ends. -/
theorem run_append (fuel : Nat) :
    ∀ (xs ys : List Call) (c : MemoryCache),
      run fuel c (xs ++ ys) = match run fuel c xs with
        | Outcome.done c1 => run fuel c1 ys
        | Outcome.panic => Outcome.panic
        | Outcome.outOfFuel => Outcome.outOfFuel := by
  intro xs
  induction xs with
  | nil => intro ys c; rfl
  | cons x xs ih =>
    intro ys c
    simp only [List.cons_append, run]
    cases applyCall fuel c x with
    | done c1 => exact ih ys c1
    | panic => rfl
    | outOfFuel => rfl

/-- The loop that cannot make progress is in the same state at every iteration. -/
theorem evictIter_stuck (c : MemoryCache) (hover : overCapacity c = true)
    (hfix : evictStep c = some c) : ∀ m : Nat, evictIter m c = some c := by
  intro m
  induction m with
  | zero => rfl
  | succ n ih => simp [evictIter, hover, hfix, ih]

/-- When the calls do return, a bounded engine holds at most `MaxItems` present keys. -/
theorem present_keys_le_of_run (N : Int) (hN : 0 < N) (fuel : Nat) (calls : List Call)
    (c : MemoryCache) (h : run fuel (fresh N) calls = Outcome.done c) :
    ∃ s : Finset String, (∀ k, k ∈ s ↔ (c.Get k).1.2.1 = true) ∧ (s.card : Int) ≤ N := by
  obtain ⟨_, hlen⟩ := mapLen_le_of_run N hN fuel calls c h
  refine ⟨((index c).map Prod.fst).toFinset, ?_, ?_⟩
  · intro k
    rw [List.mem_toFinset, Get_found_iff_mem]
  · rw [mapLen_eq_index] at hlen
    have h1 : ((index c).map Prod.fst).toFinset.card ≤ (index c).length := by
      have := List.toFinset_card_le ((index c).map Prod.fst)
      simpa using this
    have h2 : ((((index c).map Prod.fst).toFinset.card : Nat) : Int) ≤ ((index c).length : Nat) := by
      exact_mod_cast h1
    exact le_trans h2 hlen

/-- C3. Capacity invariant, evaluated where it fails: on an engine with `MaxItems = 1` the
`Set` calls of `a`, `a`, `b` return and leave the state `staleTail`; the `Set` of `c` that
follows never returns, so the four calls reach no state, whatever the fuel; inside that
last `Set` the engine is, at every iteration of the eviction loop, one in which `Get`
would find both `b` and `c`, two present keys against `MaxItems = 1`. (Whenever a sequence
of `Set` calls does return, the present keys are at most `MaxItems`.) -/
theorem C3_two_keys_present_at_MaxItems_one :
    run 1 (fresh 1) (setCalls overwriteThenAddSets) = Outcome.done staleTail ∧
    (∀ fuel : Nat,
      run fuel (fresh 1) (setCalls overwriteThenAddTwice) = Outcome.outOfFuel) ∧
    (∀ m : Nat, evictIter m (afterInsert staleTail "c" (Iface.str "C"))
      = some (afterInsert staleTail "c" (Iface.str "C"))) ∧
    (afterInsert staleTail "c" (Iface.str "C")).MaxItems = 1 ∧
    ((afterInsert staleTail "c" (Iface.str "C")).Get "b").1 = (Iface.str "B", true, none) ∧
    ((afterInsert staleTail "c" (Iface.str "C")).Get "c").1 = (Iface.str "C", true, none) ∧
    (∀ (N : Int) (fuel : Nat) (kvs : List (String × Iface × Int)) (c : MemoryCache),
      0 < N → run fuel (fresh N) (setCalls kvs) = Outcome.done c →
      ∃ s : Finset String, (∀ k, k ∈ s ↔ (c.Get k).1.2.1 = true) ∧ (s.card : Int) ≤ N) := by
  refine ⟨rfl, ?_, evictIter_stuck _ rfl rfl, rfl, rfl, rfl, ?_⟩
  · intro fuel
    cases fuel with
    | zero => rfl
    | succ n =>
      have hpre : run (n + 1) (fresh 1) (setCalls overwriteThenAddSets)
          = Outcome.done staleTail := by
        cases n <;> rfl
      have hlast : run (n + 1) staleTail (setCalls [("c", Iface.str "C", 0)])
          = Outcome.outOfFuel := by
        simp only [setCalls, List.map_cons, List.map_nil, run, applyCall, Set_eq,
          evictLoop_stuck (afterInsert staleTail "c" (Iface.str "C")) rfl rfl]
      have hsplit : setCalls overwriteThenAddTwice
          = setCalls overwriteThenAddSets ++ setCalls [("c", Iface.str "C", 0)] := by
        simp [setCalls, overwriteThenAddTwice]
      rw [hsplit, run_append, hpre]
      exact hlast
  · intro N fuel kvs c hN h
    exact present_keys_le_of_run N hN fuel (setCalls kvs) c h

/-- C4. Overwrite, evaluated where it fails: on an unbounded zero-valued engine,
`Set(a, "A1", 0)` followed by `Set(a, "A2", 0)` leaves two elements with key `a` in the
recency list (the key index has one binding for `a`, holding `"A2"`). -/
theorem C4_overwrite_keeps_old_element (fuel : Nat) :
    ∃ c, run fuel (fresh 0)
        [Call.Set "a" (Iface.str "A1") 0, Call.Set "a" (Iface.str "A2") 0] = Outcome.done c ∧
      (elems c).map (fun e => e.Value) = [{ key := "a", value := Iface.str "A2" },
        { key := "a", value := Iface.str "A1" }] ∧
      (index c).map (fun p => (p.1, p.2.Value.value)) = [("a", Iface.str "A2")] := by
  cases fuel <;> exact ⟨_, rfl, rfl, rfl⟩

/-- C5. Set always completes, evaluated where it fails: on an engine with `MaxItems = 1`
the calls `Set a`, `Set a`, `Set b` return and leave the state `staleTail`; there the
eviction loop of `Set(c, "C", 0)` is over capacity and its body changes nothing, so no
number of iterations ends it. -/
theorem C5_set_never_returns :
    run 1 (fresh 1) overwriteThenAdd = Outcome.done staleTail ∧
      overCapacity (afterInsert staleTail "c" (Iface.str "C")) = true ∧
      evictStep (afterInsert staleTail "c" (Iface.str "C"))
        = some (afterInsert staleTail "c" (Iface.str "C")) ∧
      ∀ fuel : Nat, staleTail.Set fuel "c" (Iface.str "C") 0 = Outcome.outOfFuel := by
  refine ⟨rfl, rfl, rfl, fun fuel => ?_⟩
  rw [Set_eq, evictLoop_stuck (afterInsert staleTail "c" (Iface.str "C")) rfl rfl]

/-- C6. Clear semantics: `Clear(k)` returns true exactly when `Get(k)` would have reported
found just before, and a `Get(k)` after `Clear(k)` returns `(nil, false)` with a nil error. -/
theorem C6_clear_semantics (c : MemoryCache) (k : String) :
    ((c.Clear k).1.1 = true ↔ (c.Get k).1.2.1 = true) ∧
      ((c.Clear k).2.Get k).1 = (Iface.nil, false, none) := by
  constructor
  · rw [Clear_fst, Get_found_iff]
    cases mapLookup c.elementsByKey k <;> simp
  · rw [Get_fst, Clear_lookup]
    simp

/-- C7. Idempotent Clear: when `k` is present, `Clear(k)` twice in a row returns true then
false, and the second call leaves the engine exactly as the first left it; a `Clear` of
any absent key `j` leaves the recency list and the key index unchanged. -/
theorem C7_idempotent_clear (c : MemoryCache) (k j : String)
    (hk : (c.Get k).1.2.1 = true) (hj : (c.Get j).1.2.1 = false) :
    (c.Clear k).1 = (true, none) ∧
      ((c.Clear k).2.Clear k).1 = (false, none) ∧
      ((c.Clear k).2.Clear k).2 = (c.Clear k).2 ∧
      elems (c.Clear j).2 = elems c ∧ index (c.Clear j).2 = index c := by
  obtain ⟨e, he⟩ := (Get_found_iff c k).1 hk
  have hj1 : mapLookup c.elementsByKey j = none := by
    cases h : mapLookup c.elementsByKey j with
    | none => rfl
    | some e1 =>
      have := (Get_found_iff c j).2 ⟨e1, h⟩
      rw [hj] at this
      exact absurd this (by decide)
  have hgone : mapLookup (c.Clear k).2.elementsByKey k = none := by
    rw [Clear_lookup]; simp
  have hinit : initIfNeeded (c.Clear k).2 = (c.Clear k).2 :=
    initIfNeeded_of_initialised _ (initialised_Clear c k)
  have hsecond : (c.Clear k).2.Clear k = ((false, none), (c.Clear k).2) := by
    show clearWhenLocked (initIfNeeded (c.Clear k).2) k = _
    rw [hinit]
    exact clearWhenLocked_absent _ k hgone
  have hj2 : c.Clear j = ((false, none), initIfNeeded c) := by
    show clearWhenLocked (initIfNeeded c) j = _
    apply clearWhenLocked_absent
    rw [mapLookup_initIfNeeded]; exact hj1
  refine ⟨?_, ?_, ?_, ?_, ?_⟩
  · rw [Clear_fst, he]; rfl
  · rw [hsecond]
  · rw [hsecond]
  · rw [hj2]; exact elems_initIfNeeded c
  · rw [hj2]; exact index_initIfNeeded c

/-- C7 on an engine holding `a` and `b`: clearing `a` twice, and clearing the absent `z`. -/
theorem C7_idempotent_clear_witness :
    (twoItems.Get "a").1.2.1 = true ∧ (twoItems.Get "z").1.2.1 = false ∧
    ((twoItems.Clear "a").1 = (true, none) ∧
      ((twoItems.Clear "a").2.Clear "a").1 = (false, none) ∧
      ((twoItems.Clear "a").2.Clear "a").2 = (twoItems.Clear "a").2 ∧
      elems (twoItems.Clear "z").2 = elems twoItems ∧
      index (twoItems.Clear "z").2 = index twoItems) :=
  ⟨by rfl, by rfl, C7_idempotent_clear twoItems "a" "z" (by rfl) (by rfl)⟩

/-- C8. Clear leaves other items alone: for distinct keys `k` and `j`, `Get(j)` after
`Clear(k)` returns the same value, found flag and error as `Get(j)` before it. -/
theorem C8_clear_frame (c : MemoryCache) (k j : String) (hkj : k ≠ j) :
    ((c.Clear k).2.Get j).1 = (c.Get j).1 := by
  rw [Get_fst, Get_fst, Clear_lookup]
  have : ¬ j = k := fun h => hkj h.symm
  simp [this]

/-- C8 on an engine holding `a` and `b`: clearing `a` does not change what `Get b` returns. -/
theorem C8_clear_frame_witness :
    "a" ≠ "b" ∧ ((twoItems.Clear "a").2.Get "b").1 = (twoItems.Get "b").1 :=
  ⟨by decide, C8_clear_frame twoItems "a" "b" (by decide)⟩

/-- C9. Miss before insert: on a zero-valued engine with any `MaxItems`, after any calls
that returned and among which there is no `Set` of `k`, `Get(k)` returns `(nil, false)` and
a nil error. -/
theorem C9_miss_before_insert (n : Int) (fuel : Nat) (k : String) (calls : List Call)
    (c : MemoryCache) (hk : ∀ v d, Call.Set k v d ∉ calls)
    (h : run fuel (fresh n) calls = Outcome.done c) :
    (c.Get k).1 = (Iface.nil, false, none) := by
  have hnone : mapLookup c.elementsByKey k = none := by
    refine run_invariant (fun c => mapLookup c.elementsByKey k = none)
      (fun call => ∀ v d, call ≠ Call.Set k v d) fuel ?_ calls (fresh n) c ?_ rfl h
    · intro c0 call c1 hQ hP ha
      cases call with
      | Get key =>
        simp only [applyCall, Outcome.done.injEq] at ha
        subst ha
        rw [Get_elementsByKey, mapLookup_initIfNeeded]
        exact hP
      | Clear key =>
        simp only [applyCall, Outcome.done.injEq] at ha
        subst ha
        rw [Clear_lookup, hP]
        simp
      | Set key val d =>
        have hne : k ≠ key := fun hkk => hQ val d (by rw [hkk])
        have hl := applyCall_Set_done fuel c0 c1 key val d ha
        refine (evictLoop_done (fun c => mapLookup c.elementsByKey k = none) ?_ fuel _ c1 hl ?_).1
        · intro c2 key2 hc2
          show mapLookup (clearWhenLocked c2 key2).2.elementsByKey k = none
          rw [clearWhenLocked_lookup, hc2]
          simp
        · show mapLookup (afterInsert c0 key val).elementsByKey k = none
          rw [mapLookup_afterInsert, if_neg hne]
          exact hP
    · intro call hcall v d heq
      exact hk v d (heq ▸ hcall)
  rw [Get_fst, hnone]

/-- C9 for the key `a` and the calls of `neverSetsA` on an engine with `MaxItems = 1`. -/
theorem C9_miss_before_insert_witness :
    (∀ v d, Call.Set "a" v d ∉ neverSetsA) ∧
    run 1 (fresh 1) neverSetsA = Outcome.done afterNeverSetsA ∧
    (afterNeverSetsA.Get "a").1 = (Iface.nil, false, none) :=
  ⟨by intro v d; simp [neverSetsA], by rfl,
    C9_miss_before_insert 1 1 "a" neverSetsA afterNeverSetsA
      (by intro v d; simp [neverSetsA]) (by rfl)⟩

/-- C10. Multi-eviction, evaluated where it fails: on an engine with `MaxItems = 3`, after
`Set y`, `Set x`, `Set x`, `Set z`, `Get x` the keys `y`, `z`, `x` are present, touched in
that order; `Set p` then `Set q` evict `y` and `x` and keep `z`, where the two least
recently touched keys are `y` and `z`. -/
theorem C10_second_eviction_takes_recent_key (fuel : Nat) :
    ∃ c c1, run (fuel + 1) (fresh 3) threeKeysOneOverwritten = Outcome.done c ∧
      (index c).map Prod.fst = ["z", "x", "y"] ∧
      run (fuel + 1) c [Call.Set "p" (Iface.str "P") 0, Call.Set "q" (Iface.str "Q") 0]
        = Outcome.done c1 ∧
      (c1.Get "y").1 = (Iface.nil, false, none) ∧
      (c1.Get "x").1 = (Iface.nil, false, none) ∧
      (c1.Get "z").1 = (Iface.str "Z", true, none) ∧
      (c1.Get "p").1 = (Iface.str "P", true, none) ∧
      (c1.Get "q").1 = (Iface.str "Q", true, none) := by
  cases fuel <;>
    exact ⟨_, _, rfl, rfl, rfl, rfl, rfl, rfl, rfl, rfl⟩


/-! ## Lemmas on errors, unbounded engines and expiry -/

theorem evictLoop_not_over (fuel : Nat) (c : MemoryCache) (h : overCapacity c = false) :
    evictLoop fuel c = Outcome.done c := by
  cases fuel <;> simp [evictLoop, h]

theorem overCapacity_of_MaxItems_zero (c : MemoryCache) (h : c.MaxItems = 0) :
    overCapacity c = false := by
  simp [overCapacity, h]

theorem Set_unbounded (fuel : Nat) (c : MemoryCache) (k : String) (v : Iface) (d : Int)
    (h : c.MaxItems = 0) : c.Set fuel k v d = Outcome.done (none, afterInsert c k v) := by
  rw [Set_eq, evictLoop_not_over fuel _
    (overCapacity_of_MaxItems_zero _ ((afterInsert_MaxItems c k v).trans h))]

theorem mapLookup_eq_index (c : MemoryCache) (k : String) :
    mapLookup c.elementsByKey k = (index c).lookup k := by
  unfold mapLookup index
  cases c.elementsByKey <;> rfl

/-- An invariant that follows the history of `Set` calls along a sequence of calls. -/
theorem run_history (P : MemoryCache → (String → Option Iface) → Prop) (Q : Call → Prop)
    (fuel : Nat)
    (hcall : ∀ c h call c1, Q call → P c h → applyCall fuel c call = Outcome.done c1 →
      P c1 (recordSet h call)) :
    ∀ (calls : List Call) (c : MemoryCache) (h : String → Option Iface) (c1 : MemoryCache),
      (∀ call ∈ calls, Q call) → P c h → run fuel c calls = Outcome.done c1 →
      P c1 (calls.foldl recordSet h) := by
  intro calls
  induction calls with
  | nil =>
    intro c h c1 _ hP hr
    simp only [run, Outcome.done.injEq] at hr
    subst hr
    exact hP
  | cons call rest ih =>
    intro c h c1 hQ hP hr
    unfold run at hr
    cases ha : applyCall fuel c call with
    | done c2 =>
      simp only [ha] at hr
      exact ih c2 (recordSet h call) c1 (fun x hx => hQ x (List.mem_cons_of_mem _ hx))
        (hcall c h call c2 (hQ call (List.mem_cons_self _ _)) hP ha) hr
    | panic => simp [ha] at hr
    | outOfFuel => simp [ha] at hr

/-- On an unbounded engine every sequence of calls returns. -/
theorem run_unbounded_done (fuel : Nat) :
    ∀ (calls : List Call) (c : MemoryCache), c.MaxItems = 0 →
      ∃ c1, run fuel c calls = Outcome.done c1 := by
  intro calls
  induction calls with
  | nil => intro c _; exact ⟨c, rfl⟩
  | cons call rest ih =>
    intro c h0
    cases call with
    | Get key =>
      obtain ⟨c1, h1⟩ := ih (c.Get key).2 ((Get_MaxItems c key).trans h0)
      exact ⟨c1, by simpa [run, applyCall] using h1⟩
    | Clear key =>
      obtain ⟨c1, h1⟩ := ih (c.Clear key).2 ((Clear_MaxItems c key).trans h0)
      exact ⟨c1, by simpa [run, applyCall] using h1⟩
    | Set key val d =>
      obtain ⟨c1, h1⟩ := ih (afterInsert c key val) ((afterInsert_MaxItems c key val).trans h0)
      exact ⟨c1, by simpa [run, applyCall, Set_unbounded fuel c key val d h0] using h1⟩

theorem applyCall_eraseExpiry (fuel : Nat) (c : MemoryCache) (call : Call) :
    applyCall fuel c (eraseExpiry call) = applyCall fuel c call := by
  cases call <;> rfl

theorem run_eraseExpiry (fuel : Nat) :
    ∀ (calls : List Call) (c : MemoryCache),
      run fuel c (calls.map eraseExpiry) = run fuel c calls := by
  intro calls
  induction calls with
  | nil => intro c; rfl
  | cons call rest ih =>
    intro c
    simp only [List.map_cons, run, applyCall_eraseExpiry]
    cases applyCall fuel c call with
    | done c1 => exact ih c1
    | panic => rfl
    | outOfFuel => rfl

/-- C11. No operation fails, evaluated where it fails: the error returned by `Get` and by
`Clear` is always nil, and so is the error of every `Set` that returns; but in the state
`staleTail`, which `Set a`, `Set a`, `Set b` leave on an engine with `MaxItems = 1`,
`Set(d, nil, 9)` returns nothing at all, whatever the number of loop iterations allowed. -/
theorem C11_nil_errors_but_set_hangs :
    (∀ (c : MemoryCache) (k : String), (c.Get k).1.2.2 = none) ∧
      (∀ (c : MemoryCache) (k : String), (c.Clear k).1.2 = none) ∧
      (∀ (fuel : Nat) (c : MemoryCache) (k : String) (v : Iface) (d : Int)
        (r : error × MemoryCache), c.Set fuel k v d = Outcome.done r → r.1 = none) ∧
      run 1 (fresh 1) overwriteThenAdd = Outcome.done staleTail ∧
      ∀ fuel : Nat, staleTail.Set fuel "d" Iface.nil 9 = Outcome.outOfFuel := by
  refine ⟨?_, ?_, ?_, rfl, ?_⟩
  · intro c k
    rw [Get_fst]
    cases mapLookup c.elementsByKey k <;> rfl
  · intro c k
    rw [Clear_fst]
  · intro fuel c k v d r h
    exact (Set_done fuel c k v d r h).1
  · intro fuel
    rw [Set_eq, evictLoop_stuck (afterInsert staleTail "d" Iface.nil) rfl rfl]

/-- C12. Unbounded when `MaxItems = 0`: on a zero-valued engine with `MaxItems = 0` every
sequence of `Get` and `Set` calls returns, with any fuel; afterwards `Get(k)` returns the
value of the most recent `Set` of `k` with found = true, for every key that was ever set
(and `(nil, false)` for the others); and a `Set` on any engine with `MaxItems = 0` returns
and leaves what `Get` returns for every other key unchanged, so it evicts nothing. -/
theorem C12_unbounded_keeps_everything (fuel : Nat) (calls : List Call)
    (hnc : ∀ call ∈ calls, call.notClear = true) :
    (∃ c, run fuel (fresh 0) calls = Outcome.done c ∧
      ∀ k, (c.Get k).1 = expectedGet (lastSet calls k)) ∧
    (∀ (c0 : MemoryCache) (k j : String) (v : Iface) (d : Int), c0.MaxItems = 0 → j ≠ k →
      ∃ c1, c0.Set fuel k v d = Outcome.done (none, c1) ∧ (c1.Get j).1 = (c0.Get j).1) := by
  constructor
  · obtain ⟨c, hc⟩ := run_unbounded_done fuel calls (fresh 0) rfl
    refine ⟨c, hc, ?_⟩
    have hP := run_history
      (fun c h => c.MaxItems = 0 ∧
        ∀ k, (mapLookup c.elementsByKey k).map (fun e => e.Value.value) = h k)
      (fun call => call.notClear = true) fuel ?_ calls (fresh 0) (fun _ => none) c hnc
      ⟨rfl, fun k => rfl⟩ hc
    · intro k
      rw [Get_fst]
      have := hP.2 k
      unfold lastSet
      rw [← this]
      cases mapLookup c.elementsByKey k <;> rfl
    · intro c0 h call c1 hQ hP ha
      obtain ⟨h0, hl⟩ := hP
      cases call with
      | Get key =>
        simp only [applyCall, Outcome.done.injEq] at ha
        subst ha
        refine ⟨(Get_MaxItems c0 key).trans h0, fun k => ?_⟩
        rw [Get_elementsByKey, mapLookup_initIfNeeded]
        exact hl k
      | Clear key => simp [Call.notClear] at hQ
      | Set key val d =>
        simp only [applyCall, Set_unbounded fuel c0 key val d h0, Outcome.done.injEq] at ha
        subst ha
        refine ⟨(afterInsert_MaxItems c0 key val).trans h0, fun k => ?_⟩
        rw [mapLookup_afterInsert]
        by_cases hk : k = key
        · simp [hk, recordSet]
        · simp [hk, recordSet, hl k]
  · intro c0 k j v d h0 hjk
    refine ⟨afterInsert c0 k v, Set_unbounded fuel c0 k v d h0, ?_⟩
    rw [Get_fst, Get_fst, mapLookup_afterInsert, if_neg hjk]

/-- C12 on the calls `readsAndWrites`. -/
theorem C12_unbounded_keeps_everything_witness :
    (∀ call ∈ readsAndWrites, call.notClear = true) ∧
    ((∃ c, run 0 (fresh 0) readsAndWrites = Outcome.done c ∧
      ∀ k, (c.Get k).1 = expectedGet (lastSet readsAndWrites k)) ∧
    (∀ (c0 : MemoryCache) (k j : String) (v : Iface) (d : Int), c0.MaxItems = 0 → j ≠ k →
      ∃ c1, c0.Set 0 k v d = Outcome.done (none, c1) ∧ (c1.Get j).1 = (c0.Get j).1)) :=
  ⟨by decide, C12_unbounded_keeps_everything 0 readsAndWrites (by decide)⟩

/-- C13. Expiry is not enforced: `Set(k, v, d1)` and `Set(k, v, d2)` end the same way, with
the same result and the same engine, for any two durations; and a sequence of calls ends
the same way as the same sequence with every duration replaced by 0. -/
theorem C13_expiry_not_enforced (fuel : Nat) (c : MemoryCache) (k : String) (v : Iface)
    (d1 d2 : Int) (calls : List Call) :
    c.Set fuel k v d1 = c.Set fuel k v d2 ∧
      run fuel c (calls.map eraseExpiry) = run fuel c calls :=
  ⟨rfl, run_eraseExpiry fuel calls c⟩


/-! ## The list and the index after each operation -/

theorem nextAddr_initIfNeeded (c : MemoryCache) : (initIfNeeded c).nextAddr = c.nextAddr := by
  unfold initIfNeeded
  cases h1 : c.mostRecentlyRead <;> cases h2 : c.elementsByKey <;> cases h3 : c.scheduler <;>
    simp [h1, h2, h3]

theorem Remove_eq_filter (l : List Element) (e : Element) :
    Remove l e = l.filter (fun x => x.addr != e.addr) := by
  unfold Remove inList
  by_cases h : (l.any fun x => x.addr == e.addr) = true
  · simp [h]
  · rw [if_neg h]
    symm
    rw [List.filter_eq_self]
    intro x hx
    simp only [List.any_eq_true, not_exists, not_and] at h
    have := h x hx
    simpa using this

theorem filter_key_of_lookup_none (bs : List (String × Element)) (k : String)
    (h : bs.lookup k = none) : bs.filter (fun p => p.1 != k) = bs := by
  rw [List.filter_eq_self]
  intro p hp
  by_contra hne
  have hpk : p.1 = k := by simpa using hne
  have hmem : k ∈ bs.map Prod.fst := List.mem_map.2 ⟨p, hp, hpk⟩
  obtain ⟨e, he⟩ := (lookup_isSome_iff bs k).2 hmem
  rw [he] at h
  cases h

theorem elems_Get (c : MemoryCache) (k : String) :
    elems (c.Get k).2 = match (index c).lookup k with
      | none => elems c
      | some e => MoveToFront (elems c) e := by
  rw [← mapLookup_eq_index, ← mapLookup_initIfNeeded]
  unfold MemoryCache.Get
  dsimp only
  split
  · exact elems_initIfNeeded c
  · rename_i e h
    show (Option.map (fun l => MoveToFront l e) (initIfNeeded c).mostRecentlyRead).getD [] = _
    rw [mostRecentlyRead_initIfNeeded c, elems_initIfNeeded]
    rfl

theorem index_Get (c : MemoryCache) (k : String) : index (c.Get k).2 = index c := by
  unfold index
  rw [Get_elementsByKey]
  exact index_initIfNeeded c

theorem nextAddr_Get (c : MemoryCache) (k : String) : (c.Get k).2.nextAddr = c.nextAddr := by
  unfold MemoryCache.Get
  dsimp only
  split <;> exact nextAddr_initIfNeeded c

theorem elems_clearWhenLocked (c : MemoryCache) (k : String) :
    elems (clearWhenLocked c k).2 = match (index c).lookup k with
      | none => elems c
      | some e => (elems c).filter (fun x => x.addr != e.addr) := by
  rw [← mapLookup_eq_index]
  unfold clearWhenLocked
  cases h : mapLookup c.elementsByKey k with
  | none => rfl
  | some e =>
    simp only [elems]
    cases c.mostRecentlyRead with
    | none => simp
    | some l => simp [Remove_eq_filter]

theorem index_clearWhenLocked (c : MemoryCache) (k : String) :
    index (clearWhenLocked c k).2 = (index c).filter (fun p => p.1 != k) := by
  unfold clearWhenLocked
  cases h : mapLookup c.elementsByKey k with
  | none =>
    rw [mapLookup_eq_index] at h
    exact (filter_key_of_lookup_none _ k h).symm
  | some e =>
    simp only [index, mapDelete]
    cases c.elementsByKey with
    | none => simp
    | some bs => simp

theorem nextAddr_clearWhenLocked (c : MemoryCache) (k : String) :
    (clearWhenLocked c k).2.nextAddr = c.nextAddr := by
  unfold clearWhenLocked
  cases mapLookup c.elementsByKey k <;> rfl

theorem elems_Clear (c : MemoryCache) (k : String) :
    elems (c.Clear k).2 = match (index c).lookup k with
      | none => elems c
      | some e => (elems c).filter (fun x => x.addr != e.addr) := by
  unfold MemoryCache.Clear
  rw [elems_clearWhenLocked, index_initIfNeeded, elems_initIfNeeded]

theorem index_Clear (c : MemoryCache) (k : String) :
    index (c.Clear k).2 = (index c).filter (fun p => p.1 != k) := by
  unfold MemoryCache.Clear
  rw [index_clearWhenLocked, index_initIfNeeded]

theorem nextAddr_Clear (c : MemoryCache) (k : String) : (c.Clear k).2.nextAddr = c.nextAddr := by
  unfold MemoryCache.Clear
  rw [nextAddr_clearWhenLocked, nextAddr_initIfNeeded]

theorem elems_afterInsert (c : MemoryCache) (k : String) (v : Iface) :
    elems (afterInsert c k v)
      = { addr := c.nextAddr, Value := { key := k, value := v } } :: elems c := by
  unfold afterInsert
  dsimp only
  rw [elems_initIfNeeded, nextAddr_initIfNeeded]
  rfl

theorem index_afterInsert (c : MemoryCache) (k : String) (v : Iface) :
    index (afterInsert c k v)
      = mapStore (index c) k { addr := c.nextAddr, Value := { key := k, value := v } } := by
  unfold afterInsert
  dsimp only
  rw [index_initIfNeeded, nextAddr_initIfNeeded]
  rfl

theorem nextAddr_afterInsert (c : MemoryCache) (k : String) (v : Iface) :
    (afterInsert c k v).nextAddr = c.nextAddr + 1 := by
  simp [afterInsert, nextAddr_initIfNeeded]


/-! ## The invariant holds in every reachable state -/

theorem addr_inj (l : List Element) (hnd : (l.map Element.addr).Nodup) (x y : Element)
    (hx : x ∈ l) (hy : y ∈ l) (h : x.addr = y.addr) : x = y :=
  List.inj_on_of_nodup_map hnd hx hy h

theorem find?_filter_of_imp (p q : Element → Bool) (l : List Element)
    (h : ∀ x ∈ l, p x = true → q x = true) : (l.filter q).find? p = l.find? p := by
  induction l with
  | nil => rfl
  | cons a l ih =>
    have ih1 := ih (fun x hx => h x (List.mem_cons_of_mem _ hx))
    by_cases hq : q a = true
    · rw [List.filter_cons_of_pos hq, List.find?_cons, List.find?_cons, ih1]
    · rw [List.filter_cons_of_neg hq, List.find?_cons, ih1]
      have hp : p a = false := by
        cases hpa : p a with
        | false => rfl
        | true => exact absurd (h a (List.mem_cons_self _ _) hpa) hq
      rw [hp]

theorem filter_addr_eq_erase (l : List Element) (hnd : (l.map Element.addr).Nodup)
    (e : Element) (he : e ∈ l) : l.filter (fun x => x.addr != e.addr) = l.erase e := by
  induction l with
  | nil => cases he
  | cons a l ih =>
    rw [List.map_cons, List.nodup_cons] at hnd
    by_cases hae : a = e
    · subst hae
      rw [List.erase_cons_head, List.filter_cons_of_neg (by simp)]
      rw [List.filter_eq_self]
      intro x hx
      have : x.addr ≠ a.addr := fun h => hnd.1 (h ▸ List.mem_map_of_mem _ hx)
      simpa using this
    · have he1 : e ∈ l := by
        rcases List.mem_cons.1 he with h | h
        · exact absurd h.symm hae
        · exact h
      have hne : a.addr ≠ e.addr := fun h => hnd.1 (h ▸ List.mem_map_of_mem _ he1)
      rw [List.filter_cons_of_pos (by simpa using hne), ih hnd.2 he1,
        List.erase_cons_tail (by simpa using hae)]

theorem MoveToFront_eq (l : List Element) (hnd : (l.map Element.addr).Nodup)
    (e : Element) (he : e ∈ l) : MoveToFront l e = e :: l.erase e := by
  unfold MoveToFront
  have hin : inList l e = true := by
    unfold inList
    rw [List.any_eq_true]
    exact ⟨e, he, by simp⟩
  by_cases hfront : (l.head?.map Element.addr == some e.addr) = true
  · have hcond : (!inList l e || l.head?.map Element.addr == some e.addr) = true := by
      simp [hfront]
    rw [if_pos hcond]
    cases l with
    | nil => cases he
    | cons a t =>
      have ha : a.addr = e.addr := by simpa using hfront
      have hae : a = e := addr_inj _ hnd a e (List.mem_cons_self _ _) he ha
      subst hae
      rw [List.erase_cons_head]
  · have hcond : ¬ (!inList l e || l.head?.map Element.addr == some e.addr) = true := by
      simp [hin, hfront]
    rw [if_neg hcond, filter_addr_eq_erase l hnd e he]

theorem find?_key_mem (l : List Element) (k : String) (e : Element)
    (h : l.find? (fun x => x.Value.key == k) = some e) : e ∈ l ∧ e.Value.key = k := by
  refine ⟨List.mem_of_find?_eq_some h, ?_⟩
  have := List.find?_some h
  simpa using this

/-- Removing an element with another key does not change which element is first for `j`. -/
theorem find?_key_filter_addr (l : List Element) (hnd : (l.map Element.addr).Nodup)
    (e : Element) (he : e ∈ l) (j : String) (hj : e.Value.key ≠ j) :
    (l.filter (fun x => x.addr != e.addr)).find? (fun x => x.Value.key == j)
      = l.find? (fun x => x.Value.key == j) := by
  apply find?_filter_of_imp
  intro x hx hxj
  have hxk : x.Value.key = j := by simpa using hxj
  have : x.addr ≠ e.addr := by
    intro h
    have hxe := addr_inj l hnd x e hx he h
    rw [hxe] at hxk
    exact hj hxk
  simpa using this

theorem Inv_fresh (n : Int) : Inv (fresh n) := by
  refine ⟨?_, ?_, ?_⟩
  · simp [fresh, elems]
  · intro e he
    simp [fresh, elems] at he
  · intro k e h
    simp [fresh, index] at h

theorem Inv_Get (c : MemoryCache) (k : String) (h : Inv c) : Inv (c.Get k).2 := by
  obtain ⟨h1, h2, h3⟩ := h
  unfold Inv
  rw [elems_Get, index_Get, nextAddr_Get]
  cases hl : (index c).lookup k with
  | none => exact ⟨h1, h2, h3⟩
  | some e =>
    dsimp only
    obtain ⟨hmem, hkey⟩ := find?_key_mem _ _ _ (h3 k e hl)
    rw [MoveToFront_eq _ h1 e hmem]
    have hperm : List.Perm (elems c) (e :: (elems c).erase e) := List.perm_cons_erase hmem
    refine ⟨?_, ?_, ?_⟩
    · exact (List.Perm.nodup_iff (hperm.map Element.addr)).1 h1
    · intro x hx
      exact h2 x (hperm.mem_iff.2 hx)
    · intro j e1 hj
      by_cases hjk : j = k
      · subst hjk
        rw [hl] at hj
        cases hj
        simp [List.find?_cons, hkey]
      · have hne : e.Value.key ≠ j := fun h => hjk (h.symm.trans hkey)
        have hb : (e.Value.key == j) = false := by simpa using hne
        rw [List.find?_cons, hb, ← filter_addr_eq_erase _ h1 e hmem,
          find?_key_filter_addr _ h1 e hmem j hne]
        exact h3 j e1 hj

theorem Inv_clearWhenLocked (c : MemoryCache) (k : String) (h : Inv c) :
    Inv (clearWhenLocked c k).2 := by
  obtain ⟨h1, h2, h3⟩ := h
  unfold Inv
  rw [elems_clearWhenLocked, index_clearWhenLocked, nextAddr_clearWhenLocked]
  cases hl : (index c).lookup k with
  | none =>
    dsimp only
    rw [filter_key_of_lookup_none _ k hl]
    exact ⟨h1, h2, h3⟩
  | some e =>
    dsimp only
    obtain ⟨hmem, hkey⟩ := find?_key_mem _ _ _ (h3 k e hl)
    refine ⟨?_, ?_, ?_⟩
    · exact h1.sublist ((List.filter_sublist _).map Element.addr)
    · intro x hx
      exact h2 x (List.mem_filter.1 hx).1
    · intro j e1 hj
      rw [lookup_filter_ne] at hj
      by_cases hjk : j = k
      · simp [hjk] at hj
      · rw [if_neg hjk] at hj
        have hne : e.Value.key ≠ j := fun h => hjk (h.symm.trans hkey)
        rw [find?_key_filter_addr _ h1 e hmem j hne]
        exact h3 j e1 hj

theorem Inv_initIfNeeded (c : MemoryCache) (h : Inv c) : Inv (initIfNeeded c) := by
  unfold Inv
  rw [elems_initIfNeeded, index_initIfNeeded, nextAddr_initIfNeeded]
  exact h

theorem Inv_Clear (c : MemoryCache) (k : String) (h : Inv c) : Inv (c.Clear k).2 :=
  Inv_clearWhenLocked _ k (Inv_initIfNeeded c h)

theorem Inv_afterInsert (c : MemoryCache) (k : String) (v : Iface) (h : Inv c) :
    Inv (afterInsert c k v) := by
  obtain ⟨h1, h2, h3⟩ := h
  unfold Inv
  rw [elems_afterInsert, index_afterInsert, nextAddr_afterInsert]
  refine ⟨?_, ?_, ?_⟩
  · rw [List.map_cons, List.nodup_cons]
    refine ⟨?_, h1⟩
    intro hmem
    obtain ⟨x, hx, hxa⟩ := List.mem_map.1 hmem
    have := h2 x hx
    rw [hxa] at this
    exact lt_irrefl _ this
  · intro x hx
    rcases List.mem_cons.1 hx with hx | hx
    · subst hx
      exact Nat.lt_succ_self _
    · exact Nat.lt_succ_of_lt (h2 x hx)
  · intro j e1 hj
    rw [lookup_mapStore] at hj
    by_cases hjk : j = k
    · subst hjk
      simp only [if_true, Option.some.injEq] at hj
      subst hj
      simp [List.find?_cons]
    · rw [if_neg hjk] at hj
      have hb : (k == j) = false := by simpa using fun h : k = j => hjk h.symm
      rw [List.find?_cons]
      simp only [hb]
      exact h3 j e1 hj

theorem Inv_evictLoop (fuel : Nat) (c c1 : MemoryCache)
    (hl : evictLoop fuel c = Outcome.done c1) (h : Inv c) : Inv c1 :=
  (evictLoop_done Inv (fun c key hc => Inv_clearWhenLocked c key hc) fuel c c1 hl h).1

theorem Inv_applyCall (fuel : Nat) (c c1 : MemoryCache) (call : Call) (h : Inv c)
    (ha : applyCall fuel c call = Outcome.done c1) : Inv c1 := by
  cases call with
  | Get key =>
    simp only [applyCall, Outcome.done.injEq] at ha
    subst ha
    exact Inv_Get c key h
  | Clear key =>
    simp only [applyCall, Outcome.done.injEq] at ha
    subst ha
    exact Inv_Clear c key h
  | Set key val d =>
    exact Inv_evictLoop fuel _ c1 (applyCall_Set_done fuel c c1 key val d ha)
      (Inv_afterInsert c key val h)

theorem Inv_run (n : Int) (fuel : Nat) (calls : List Call) (c : MemoryCache)
    (h : run fuel (fresh n) calls = Outcome.done c) : Inv c :=
  run_invariant Inv (fun _ => True) fuel
    (fun c0 call c1 _ hP ha => Inv_applyCall fuel c0 c1 call hP ha)
    calls (fresh n) c (fun _ _ => trivial) (Inv_fresh n) h


/-! ## Consequences of the invariant -/

theorem bind_Back_eq (c : MemoryCache) : c.mostRecentlyRead.bind Back = Back (elems c) := by
  unfold elems
  cases c.mostRecentlyRead <;> rfl

theorem Back_of_overCapacity (c : MemoryCache) (h : Inv c) (hover : overCapacity c = true) :
    ∃ e, c.mostRecentlyRead.bind Back = some e := by
  obtain ⟨_, _, h3⟩ := h
  rw [bind_Back_eq]
  unfold overCapacity at hover
  simp only [Bool.and_eq_true, decide_eq_true_eq] at hover
  have hpos : 0 < mapLen c.elementsByKey := by
    have : (0 : Int) < mapLen c.elementsByKey := lt_trans hover.1 hover.2
    exact_mod_cast this
  rw [mapLen_eq_index] at hpos
  cases hi : index c with
  | nil => rw [hi] at hpos; exact absurd hpos (by simp)
  | cons p rest =>
    obtain ⟨k, e⟩ := p
    have hl : (index c).lookup k = some e := by
      rw [hi, List.lookup_cons]; simp
    have hmem := (find?_key_mem _ _ _ (h3 k e hl)).1
    unfold Back
    cases hl2 : (elems c).getLast? with
    | none =>
      rw [List.getLast?_eq_none_iff] at hl2
      rw [hl2] at hmem
      cases hmem
    | some x => exact ⟨x, rfl⟩

theorem Inv_evictStep (c c1 : MemoryCache) (h : Inv c) (hs : evictStep c = some c1) :
    Inv c1 := by
  unfold evictStep at hs
  cases hb : c.mostRecentlyRead.bind Back with
  | none => simp [hb] at hs
  | some oldest =>
    simp only [hb, Option.some.injEq] at hs
    subst hs
    exact Inv_clearWhenLocked c _ h

theorem evictStep_isSome (c : MemoryCache) (h : Inv c) (hover : overCapacity c = true) :
    ∃ c1, evictStep c = some c1 := by
  obtain ⟨e, he⟩ := Back_of_overCapacity c h hover
  exact ⟨_, by unfold evictStep; rw [he]⟩

theorem evictLoop_ne_panic :
    ∀ (fuel : Nat) (c : MemoryCache), Inv c → evictLoop fuel c ≠ Outcome.panic := by
  intro fuel
  induction fuel with
  | zero =>
    intro c _
    unfold evictLoop
    cases overCapacity c <;> simp
  | succ m ih =>
    intro c h
    unfold evictLoop
    cases hover : overCapacity c with
    | false => simp
    | true =>
      obtain ⟨c1, hc1⟩ := evictStep_isSome c h hover
      simp only [if_true, hc1]
      exact ih c1 (Inv_evictStep c c1 h hc1)

theorem Inv_evictIter :
    ∀ (m : Nat) (c c1 : MemoryCache), Inv c → evictIter m c = some c1 → Inv c1 := by
  intro m
  induction m with
  | zero =>
    intro c c1 h hi
    simp only [evictIter, Option.some.injEq] at hi
    subst hi
    exact h
  | succ m ih =>
    intro c c1 h hi
    unfold evictIter at hi
    cases hover : overCapacity c with
    | false => simp [hover] at hi
    | true =>
      simp only [hover, if_true] at hi
      cases hs : evictStep c with
      | none => simp [hs] at hi
      | some c2 =>
        simp only [hs, Option.some_bind] at hi
        exact ih c2 c1 (Inv_evictStep c c2 h hs) hi

/-- With distinct addresses, an element that is first for its key has no element with
that key in front of it. -/
theorem no_earlier_key (l : List Element) (hnd : (l.map Element.addr).Nodup) (k : String)
    (e : Element) (hf : l.find? (fun x => x.Value.key == k) = some e)
    (pre post : List Element) (hl : l = pre ++ e :: post) :
    ∀ x ∈ pre, x.Value.key ≠ k := by
  intro x hx hxk
  subst hl
  rw [List.find?_append] at hf
  cases hp : pre.find? (fun x => x.Value.key == k) with
  | none =>
    rw [List.find?_eq_none] at hp
    exact hp x hx (by simpa using hxk)
  | some y =>
    rw [hp] at hf
    simp only [Option.or, Option.some.injEq] at hf
    subst hf
    have hy : y ∈ pre := List.mem_of_find?_eq_some hp
    rw [List.map_append, List.nodup_append] at hnd
    exact hnd.2.2 (List.mem_map_of_mem _ hy)
      (List.mem_map_of_mem _ (List.mem_cons_self _ _))

/-- The index holds, for each key, the value of the most recent `Set` of this key. -/
theorem index_value_lastSet (n : Int) (fuel : Nat) (calls : List Call) (c : MemoryCache)
    (hc : run fuel (fresh n) calls = Outcome.done c) (k : String) (e : Element)
    (hk : mapLookup c.elementsByKey k = some e) : lastSet calls k = some e.Value.value := by
  have hP := run_history
    (fun c h => ∀ k e, mapLookup c.elementsByKey k = some e → h k = some e.Value.value)
    (fun _ => True) fuel ?_ calls (fresh n) (fun _ => none) c (fun _ _ => trivial) ?_ hc
  · exact hP k e hk
  · intro c0 h call c1 _ hP ha
    cases call with
    | Get key =>
      simp only [applyCall, Outcome.done.injEq] at ha
      subst ha
      intro j e1 hj
      rw [Get_elementsByKey, mapLookup_initIfNeeded] at hj
      exact hP j e1 hj
    | Clear key =>
      simp only [applyCall, Outcome.done.injEq] at ha
      subst ha
      intro j e1 hj
      rw [Clear_lookup] at hj
      by_cases hjk : j = key
      · simp [hjk] at hj
      · rw [if_neg hjk] at hj
        exact hP j e1 hj
    | Set key val d =>
      have hl := applyCall_Set_done fuel c0 c1 key val d ha
      refine (evictLoop_done
        (fun c => ∀ k e, mapLookup c.elementsByKey k = some e →
          recordSet h (Call.Set key val d) k = some e.Value.value) ?_ fuel _ c1 hl ?_).1
      · intro c2 key2 hc2 j e1 hj
        rw [clearWhenLocked_lookup] at hj
        by_cases hjk : j = key2
        · simp [hjk] at hj
        · rw [if_neg hjk] at hj
          exact hc2 j e1 hj
      · intro j e1 hj
        rw [mapLookup_afterInsert] at hj
        by_cases hjk : j = key
        · simp only [hjk, if_true, Option.some.injEq] at hj
          subst hj
          simp [recordSet, hjk]
        · rw [if_neg hjk] at hj
          simp only [recordSet, if_neg hjk]
          exact hP j e1 hj
  · intro j e1 hj
    simp [fresh, mapLookup] at hj


/-- C15. Structural invariant, evaluated where it fails: on a zero-valued engine with
`MaxItems = 5`, after `Set(k, 1, 0)`, `Set(k, 2, 0)`, `Get(k)` the recency list has two
elements, both with key `k`, while the key index has one binding. -/
theorem C15_list_has_two_entries_for_one_key (fuel : Nat) :
    ∃ c, run fuel (fresh 5) [Call.Set "k" (Iface.num 1) 0, Call.Set "k" (Iface.num 2) 0,
        Call.Get "k"] = Outcome.done c ∧
      (elems c).map (fun e => e.Value.key) = ["k", "k"] ∧
      (elems c).length = 2 ∧ (index c).length = 1 := by
  cases fuel <;> exact ⟨_, rfl, rfl, rfl, rfl⟩

/-- C16. Recency-list bound, evaluated where it fails: on a zero-valued engine with
`MaxItems = 1`, `Set(a, "A1", 0)` then `Set(a, "A2", 0)` complete without evicting, and
the recency list then has length 2. -/
theorem C16_list_longer_than_MaxItems (fuel : Nat) :
    ∃ c, run fuel (fresh 1) [Call.Set "a" (Iface.str "A1") 0,
        Call.Set "a" (Iface.str "A2") 0] = Outcome.done c ∧
      c.MaxItems = 1 ∧ (elems c).length = 2 := by
  cases fuel <;> exact ⟨_, rfl, rfl, rfl⟩

/-- C17. Get only reorders: in a state reached from a zero-valued engine, a `Get(k)` that
misses returns `(nil, false)` and leaves the recency list and the key index as they are; a
`Get(k)` that hits returns the value of the element `e` that the index holds for `k`, and
the list becomes `e` followed by the old list without `e`, in its old order; in both cases
the index is unchanged, so every `Get` afterwards returns what it would have returned
before. -/
theorem C17_get_only_reorders (n : Int) (fuel : Nat) (calls : List Call) (c : MemoryCache)
    (hc : run fuel (fresh n) calls = Outcome.done c) (k : String) :
    ((c.Get k).1.2.1 = false →
      (c.Get k).1 = (Iface.nil, false, none) ∧ elems (c.Get k).2 = elems c) ∧
    ((c.Get k).1.2.1 = true →
      ∃ e, (index c).lookup k = some e ∧ e ∈ elems c ∧ e.Value.key = k ∧
        (c.Get k).1 = (e.Value.value, true, none) ∧
        elems (c.Get k).2 = e :: (elems c).erase e) ∧
    index (c.Get k).2 = index c ∧
    ∀ j, ((c.Get k).2.Get j).1 = (c.Get j).1 := by
  obtain ⟨h1, _, h3⟩ := Inv_run n fuel calls c hc
  refine ⟨?_, ?_, index_Get c k, ?_⟩
  · intro hmiss
    have hnone : (index c).lookup k = none := by
      cases hl : (index c).lookup k with
      | none => rfl
      | some e =>
        have := (Get_found_iff c k).2 ⟨e, by rw [mapLookup_eq_index]; exact hl⟩
        rw [hmiss] at this
        cases this
    refine ⟨?_, ?_⟩
    · rw [Get_fst, mapLookup_eq_index, hnone]
    · rw [elems_Get, hnone]
  · intro hhit
    obtain ⟨e, he⟩ := (Get_found_iff c k).1 hhit
    rw [mapLookup_eq_index] at he
    obtain ⟨hmem, hkey⟩ := find?_key_mem _ _ _ (h3 k e he)
    refine ⟨e, he, hmem, hkey, ?_, ?_⟩
    · rw [Get_fst, mapLookup_eq_index, he]
    · rw [elems_Get, he]
      exact MoveToFront_eq _ h1 e hmem
  · intro j
    rw [Get_fst, Get_fst, Get_elementsByKey, mapLookup_initIfNeeded]

/-- C17 in the state left by `fillAndRead` on an engine with `MaxItems = 2`, for the key `a`. -/
theorem C17_get_only_reorders_witness :
    run 1 (fresh 2) fillAndRead = Outcome.done afterFillAndRead ∧
    (((afterFillAndRead.Get "a").1.2.1 = false →
      (afterFillAndRead.Get "a").1 = (Iface.nil, false, none) ∧
        elems (afterFillAndRead.Get "a").2 = elems afterFillAndRead) ∧
    ((afterFillAndRead.Get "a").1.2.1 = true →
      ∃ e, (index afterFillAndRead).lookup "a" = some e ∧ e ∈ elems afterFillAndRead ∧
        e.Value.key = "a" ∧
        (afterFillAndRead.Get "a").1 = (e.Value.value, true, none) ∧
        elems (afterFillAndRead.Get "a").2 = e :: (elems afterFillAndRead).erase e) ∧
    index (afterFillAndRead.Get "a").2 = index afterFillAndRead ∧
    ∀ j, ((afterFillAndRead.Get "a").2.Get j).1 = (afterFillAndRead.Get j).1) :=
  ⟨by rfl, C17_get_only_reorders 2 1 fillAndRead afterFillAndRead (by rfl) "a"⟩

/-- C19. No panic in the eviction loop: in a state reached from a zero-valued engine, no
`Set` ends in a panic, whatever the fuel; and whenever the loop condition of a `Set` holds,
at the first or at any later iteration, `Back()` of the recency list is an element. (That
an element holds a `memoryCacheItem` is the type of `Element.Value`: elements are created
by `Set` only.) -/
theorem C19_no_panic_in_eviction (n : Int) (fuel : Nat) (calls : List Call) (c : MemoryCache)
    (hc : run fuel (fresh n) calls = Outcome.done c) :
    (∀ (f : Nat) (k : String) (v : Iface) (d : Int), c.Set f k v d ≠ Outcome.panic) ∧
    (∀ (m : Nat) (k : String) (v : Iface) (c1 : MemoryCache),
      evictIter m (afterInsert c k v) = some c1 → overCapacity c1 = true →
      ∃ e, c1.mostRecentlyRead.bind Back = some e) := by
  have hinv := Inv_run n fuel calls c hc
  constructor
  · intro f k v d hp
    rw [Set_eq] at hp
    have hne := evictLoop_ne_panic f _ (Inv_afterInsert c k v hinv)
    cases hl : evictLoop f (afterInsert c k v) with
    | done c1 => rw [hl] at hp; cases hp
    | panic => exact hne hl
    | outOfFuel => rw [hl] at hp; cases hp
  · intro m k v c1 hi hover
    exact Back_of_overCapacity c1 (Inv_evictIter m _ c1 (Inv_afterInsert c k v hinv) hi) hover

/-- C19 in the state left by `fillAndRead` on an engine with `MaxItems = 2`, where every
further `Set` of a new key has to evict. -/
theorem C19_no_panic_in_eviction_witness :
    run 1 (fresh 2) fillAndRead = Outcome.done afterFillAndRead ∧
    ((∀ (f : Nat) (k : String) (v : Iface) (d : Int),
      afterFillAndRead.Set f k v d ≠ Outcome.panic) ∧
    (∀ (m : Nat) (k : String) (v : Iface) (c1 : MemoryCache),
      evictIter m (afterInsert afterFillAndRead k v) = some c1 → overCapacity c1 = true →
      ∃ e, c1.mostRecentlyRead.bind Back = some e)) :=
  ⟨by rfl, C19_no_panic_in_eviction 2 1 fillAndRead afterFillAndRead (by rfl)⟩

/-- C20. Index points at the newest node: in a state reached from a zero-valued engine by
the calls `calls`, the element `e` that `elementsByKey` holds for a key `k` is in
`mostRecentlyRead`, its item has key `k` and the value of the most recent `Set` of `k` in
`calls`, it is the first element of the list with key `k`, and no element in front of it
has key `k`. -/
theorem C20_index_points_at_newest (n : Int) (fuel : Nat) (calls : List Call)
    (c : MemoryCache) (hc : run fuel (fresh n) calls = Outcome.done c) (k : String)
    (e : Element) (hk : mapLookup c.elementsByKey k = some e) :
    e ∈ elems c ∧ e.Value.key = k ∧ lastSet calls k = some e.Value.value ∧
      (elems c).find? (fun x => x.Value.key == k) = some e ∧
      ∀ pre post, elems c = pre ++ e :: post → ∀ x ∈ pre, x.Value.key ≠ k := by
  obtain ⟨h1, _, h3⟩ := Inv_run n fuel calls c hc
  have hf := h3 k e (by rw [← mapLookup_eq_index]; exact hk)
  obtain ⟨hmem, hkey⟩ := find?_key_mem _ _ _ hf
  exact ⟨hmem, hkey, index_value_lastSet n fuel calls c hc k e hk, hf,
    fun pre post hl => no_earlier_key _ h1 k e hf pre post hl⟩

/-- C20 in the state left by `fillAndRead` on an engine with `MaxItems = 2`, for the key `a`. -/
theorem C20_index_points_at_newest_witness :
    run 1 (fresh 2) fillAndRead = Outcome.done afterFillAndRead ∧
    mapLookup afterFillAndRead.elementsByKey "a"
      = some { addr := 0, Value := { key := "a", value := Iface.str "A" } } ∧
    ((⟨0, ⟨"a", Iface.str "A"⟩⟩ : Element) ∈ elems afterFillAndRead ∧
      (⟨0, ⟨"a", Iface.str "A"⟩⟩ : Element).Value.key = "a" ∧
      lastSet fillAndRead "a" = some (⟨0, ⟨"a", Iface.str "A"⟩⟩ : Element).Value.value ∧
      (elems afterFillAndRead).find? (fun x => x.Value.key == "a")
        = some ⟨0, ⟨"a", Iface.str "A"⟩⟩ ∧
      ∀ pre post, elems afterFillAndRead = pre ++ ⟨0, ⟨"a", Iface.str "A"⟩⟩ :: post →
        ∀ x ∈ pre, x.Value.key ≠ "a") :=
  ⟨by rfl, by rfl,
    C20_index_points_at_newest 2 1 fillAndRead afterFillAndRead (by rfl) "a"
      ⟨0, ⟨"a", Iface.str "A"⟩⟩ (by rfl)⟩


/-! ## Refinement of the reference LRU -/

theorem mem_of_lookup (bs : List (String × Element)) (k : String) (e : Element)
    (h : bs.lookup k = some e) : (k, e) ∈ bs := by
  induction bs with
  | nil => simp at h
  | cons p bs ih =>
    obtain ⟨a, x⟩ := p
    rw [List.lookup_cons] at h
    by_cases hka : k = a
    · subst hka
      simp only [beq_self_eq_true, Option.some.injEq] at h
      subst h
      exact List.mem_cons_self _ _
    · have hb : (k == a) = false := by simpa using hka
      simp only [hb] at h
      exact List.mem_cons_of_mem _ (ih h)

theorem lookup_of_mem (bs : List (String × Element)) (hnd : (bs.map Prod.fst).Nodup)
    (k : String) (e : Element) (h : (k, e) ∈ bs) : bs.lookup k = some e := by
  induction bs with
  | nil => cases h
  | cons p bs ih =>
    obtain ⟨a, x⟩ := p
    rw [List.map_cons, List.nodup_cons] at hnd
    rw [List.lookup_cons]
    rcases List.mem_cons.1 h with h1 | h2
    · simp only [Prod.mk.injEq] at h1
      obtain ⟨rfl, rfl⟩ := h1
      simp
    · have hka : k ≠ a := by
        intro hka
        exact hnd.1 (List.mem_map.2 ⟨(k, e), h2, hka⟩)
      have hb : (k == a) = false := by simpa using hka
      simp only [hb]
      exact ih hnd.2 h2

theorem lookup_perm (bs1 bs2 : List (String × Element)) (hp : bs1.Perm bs2)
    (hnd : (bs2.map Prod.fst).Nodup) (k : String) : bs1.lookup k = bs2.lookup k := by
  have hnd1 : (bs1.map Prod.fst).Nodup := (List.Perm.nodup_iff (hp.map Prod.fst)).2 hnd
  cases h1 : bs1.lookup k with
  | some e =>
    exact (lookup_of_mem bs2 hnd k e (hp.mem_iff.1 (mem_of_lookup bs1 k e h1))).symm
  | none =>
    cases h2 : bs2.lookup k with
    | none => rfl
    | some e =>
      have := lookup_of_mem bs1 hnd1 k e (hp.mem_iff.2 (mem_of_lookup bs2 k e h2))
      rw [h1] at this
      cases this

theorem lookup_map_key (l : List Element) (k : String) :
    (l.map (fun e => (e.Value.key, e))).lookup k = l.find? (fun x => x.Value.key == k) := by
  induction l with
  | nil => rfl
  | cons a l ih =>
    rw [List.map_cons, List.lookup_cons, List.find?_cons, ih]
    by_cases hk : a.Value.key = k
    · simp [hk]
    · have h1 : (k == a.Value.key) = false := by simpa using fun h : k = a.Value.key => hk h.symm
      have h2 : (a.Value.key == k) = false := by simpa using hk
      simp only [h1, h2]

theorem lookup_map_item (l : List Element) (k : String) :
    (l.map (fun e => (e.Value.key, e.Value.value))).lookup k
      = (l.find? (fun x => x.Value.key == k)).map (fun e => e.Value.value) := by
  induction l with
  | nil => rfl
  | cons a l ih =>
    rw [List.map_cons, List.lookup_cons, List.find?_cons, ih]
    by_cases hk : a.Value.key = k
    · simp [hk]
    · have h1 : (k == a.Value.key) = false := by simpa using fun h : k = a.Value.key => hk h.symm
      have h2 : (a.Value.key == k) = false := by simpa using hk
      simp only [h1, h2]

theorem map_fst_map_key (l : List Element) :
    (l.map (fun e => (e.Value.key, e))).map Prod.fst = l.map (fun e => e.Value.key) := by
  rw [List.map_map]
  rfl

theorem key_inj (l : List Element) (hnd : (l.map (fun e => e.Value.key)).Nodup)
    (x y : Element) (hx : x ∈ l) (hy : y ∈ l) (h : x.Value.key = y.Value.key) : x = y :=
  List.inj_on_of_nodup_map hnd hx hy h

theorem filter_addr_eq_filter_key (l : List Element)
    (hk : (l.map (fun e => e.Value.key)).Nodup) (ha : (l.map Element.addr).Nodup)
    (e : Element) (he : e ∈ l) :
    l.filter (fun x => x.addr != e.addr) = l.filter (fun x => x.Value.key != e.Value.key) := by
  apply List.filter_congr
  intro x hx
  show (x.addr != e.addr) = (x.Value.key != e.Value.key)
  by_cases hxe : x = e
  · subst hxe
    simp
  · have h1 : (x.addr != e.addr) = true := by
      simpa using fun h : x.addr = e.addr => hxe (addr_inj l ha x e hx he h)
    have h2 : (x.Value.key != e.Value.key) = true := by
      simpa using fun h : x.Value.key = e.Value.key => hxe (key_inj l hk x e hx he h)
    rw [h1, h2]

theorem filter_key_of_find_none (l : List Element) (k : String)
    (h : l.find? (fun x => x.Value.key == k) = none) :
    l.filter (fun x => x.Value.key != k) = l := by
  rw [List.filter_eq_self]
  intro x hx
  rw [List.find?_eq_none] at h
  have := h x hx
  simpa using this

theorem map_item_filter (l : List Element) (k : String) :
    (l.filter (fun x => x.Value.key != k)).map (fun e => (e.Value.key, e.Value.value))
      = (l.map (fun e => (e.Value.key, e.Value.value))).filter (fun p => p.1 != k) := by
  rw [List.filter_map]
  rfl

theorem map_key_filter (l : List Element) (k : String) :
    (l.filter (fun x => x.Value.key != k)).map (fun e => (e.Value.key, e))
      = (l.map (fun e => (e.Value.key, e))).filter (fun p => p.1 != k) := by
  rw [List.filter_map]
  rfl

theorem filter_key_concat (pre : List Element) (x : Element)
    (hk : ((pre ++ [x]).map (fun e => e.Value.key)).Nodup) :
    (pre ++ [x]).filter (fun y => y.Value.key != x.Value.key) = pre := by
  rw [List.filter_append]
  have h1 : [x].filter (fun y => y.Value.key != x.Value.key) = [] := by simp
  rw [h1, List.append_nil, List.filter_eq_self]
  intro y hy
  have hne : y.Value.key ≠ x.Value.key := by
    intro h
    rw [List.map_append, List.nodup_append] at hk
    exact hk.2.2 (List.mem_map_of_mem (fun e => e.Value.key) hy)
      (by rw [h]; exact List.mem_map_of_mem (fun e => e.Value.key) (List.mem_singleton_self x))
  simpa using hne

theorem index_lookup_eq_find (c : MemoryCache) (h : NoStale c) (k : String) :
    (index c).lookup k = (elems c).find? (fun x => x.Value.key == k) := by
  obtain ⟨hk, _, _, hp⟩ := h
  rw [lookup_perm _ _ hp (by rw [map_fst_map_key]; exact hk) k, lookup_map_key]

theorem mapLen_eq_items (c : MemoryCache) (h : NoStale c) :
    mapLen c.elementsByKey = (items c).length := by
  obtain ⟨_, _, _, hp⟩ := h
  rw [mapLen_eq_index, hp.length_eq, List.length_map, items, List.length_map]

theorem NoStale_fresh (n : Int) : NoStale (fresh n) := by
  refine ⟨?_, ?_, ?_, ?_⟩
  · simp [fresh, elems]
  · simp [fresh, elems]
  · intro e he
    simp [fresh, elems] at he
  · simp [fresh, elems, index]

theorem WF_fresh (n : Int) : WF n (fresh n) := by
  refine ⟨rfl, NoStale_fresh n, ?_⟩
  intro h
  simpa [fresh, elems] using le_of_lt h

theorem NoStale_initIfNeeded (c : MemoryCache) (h : NoStale c) : NoStale (initIfNeeded c) := by
  unfold NoStale
  rw [elems_initIfNeeded, index_initIfNeeded, nextAddr_initIfNeeded]
  exact h

theorem items_initIfNeeded (c : MemoryCache) : items (initIfNeeded c) = items c := by
  unfold items
  rw [elems_initIfNeeded]

/-- Without superseded elements `clearWhenLocked` removes the key from the list. -/
theorem elems_clearWhenLocked_key (c : MemoryCache) (h : NoStale c) (k : String) :
    elems (clearWhenLocked c k).2 = (elems c).filter (fun x => x.Value.key != k) := by
  rw [elems_clearWhenLocked]
  have hf := index_lookup_eq_find c h k
  obtain ⟨hk, ha, _, _⟩ := h
  cases hl : (index c).lookup k with
  | none =>
    rw [hl] at hf
    exact (filter_key_of_find_none _ k hf.symm).symm
  | some e =>
    rw [hl] at hf
    obtain ⟨hmem, hkey⟩ := find?_key_mem _ _ _ hf.symm
    show (elems c).filter (fun x => x.addr != e.addr) = _
    rw [filter_addr_eq_filter_key _ hk ha e hmem, hkey]

theorem NoStale_clearWhenLocked (c : MemoryCache) (h : NoStale c) (k : String) :
    NoStale (clearWhenLocked c k).2 := by
  have he := elems_clearWhenLocked_key c h k
  obtain ⟨hk, ha, hfr, hp⟩ := h
  unfold NoStale
  rw [he, index_clearWhenLocked, nextAddr_clearWhenLocked]
  refine ⟨?_, ?_, ?_, ?_⟩
  · exact hk.sublist ((List.filter_sublist _).map _)
  · exact ha.sublist ((List.filter_sublist _).map _)
  · intro x hx
    exact hfr x (List.mem_filter.1 hx).1
  · rw [map_key_filter]
    exact hp.filter _

theorem items_clearWhenLocked (c : MemoryCache) (h : NoStale c) (k : String) :
    items (clearWhenLocked c k).2 = (items c).filter (fun p => p.1 != k) := by
  unfold items
  rw [elems_clearWhenLocked_key c h k, map_item_filter]

theorem items_lookup (c : MemoryCache) (h : NoStale c) (k : String) :
    (items c).lookup k = ((index c).lookup k).map (fun e => e.Value.value) := by
  rw [index_lookup_eq_find c h k]
  exact lookup_map_item _ k


theorem refines_Get (N : Int) (c : MemoryCache) (h : WF N c) (k : String) :
    WF N (c.Get k).2 ∧
      refGet (items c) k
        = (Ret.Get (c.Get k).1.1 (c.Get k).1.2.1 (c.Get k).1.2.2, items (c.Get k).2) := by
  obtain ⟨hM, hns, hb⟩ := h
  have hil := items_lookup c hns k
  have hf := index_lookup_eq_find c hns k
  obtain ⟨hk, ha, hfr, hp⟩ := hns
  have hve := elems_Get c k
  cases hl : (index c).lookup k with
  | none =>
    rw [hl] at hve hil
    have he : elems (c.Get k).2 = elems c := hve
    refine ⟨⟨(Get_MaxItems c k).trans hM, ?_, ?_⟩, ?_⟩
    · unfold NoStale
      rw [he, index_Get, nextAddr_Get]
      exact ⟨hk, ha, hfr, hp⟩
    · rw [he]; exact hb
    · unfold refGet
      rw [hil, Get_fst, mapLookup_eq_index, hl]
      simp only [Option.map_none', items, he]
  | some e =>
    rw [hl] at hve hil hf
    obtain ⟨hmem, hkey⟩ := find?_key_mem _ _ _ hf.symm
    have he : elems (c.Get k).2 = e :: (elems c).erase e := by
      rw [hve]; exact MoveToFront_eq _ ha e hmem
    have hperm : List.Perm (elems c) (e :: (elems c).erase e) := List.perm_cons_erase hmem
    refine ⟨⟨(Get_MaxItems c k).trans hM, ?_, ?_⟩, ?_⟩
    · unfold NoStale
      rw [he, index_Get, nextAddr_Get]
      refine ⟨?_, ?_, ?_, ?_⟩
      · exact (List.Perm.nodup_iff (hperm.map _)).1 hk
      · exact (List.Perm.nodup_iff (hperm.map _)).1 ha
      · intro x hx
        exact hfr x (hperm.mem_iff.2 hx)
      · exact hp.trans (hperm.map _)
    · rw [he, ← hperm.length_eq]; exact hb
    · unfold refGet
      rw [hil, Get_fst, mapLookup_eq_index, hl]
      simp only [Option.map_some', items, he, List.map_cons, hkey]
      rw [← filter_addr_eq_erase _ ha e hmem, filter_addr_eq_filter_key _ hk ha e hmem, hkey,
        map_item_filter]

theorem refines_Clear (N : Int) (c : MemoryCache) (h : WF N c) (k : String) :
    WF N (c.Clear k).2 ∧
      refClear (items c) k = (Ret.Clear (c.Clear k).1.1 (c.Clear k).1.2, items (c.Clear k).2) := by
  obtain ⟨hM, hns, hb⟩ := h
  have hns0 := NoStale_initIfNeeded c hns
  refine ⟨⟨(Clear_MaxItems c k).trans hM, NoStale_clearWhenLocked _ hns0 k, ?_⟩, ?_⟩
  · intro hN
    have hlen : (elems (c.Clear k).2).length ≤ (elems c).length := by
      show (elems (clearWhenLocked (initIfNeeded c) k).2).length ≤ _
      rw [elems_clearWhenLocked_key _ hns0 k, elems_initIfNeeded]
      exact List.length_filter_le _ _
    have : ((elems (c.Clear k).2).length : Int) ≤ (elems c).length := by exact_mod_cast hlen
    exact le_trans this (hb hN)
  · unfold refClear
    rw [items_lookup c hns k, Clear_fst, mapLookup_eq_index]
    have : items (c.Clear k).2 = (items c).filter (fun p => p.1 != k) := by
      show items (clearWhenLocked (initIfNeeded c) k).2 = _
      rw [items_clearWhenLocked _ hns0 k, items_initIfNeeded]
    rw [this]
    cases (index c).lookup k <;> rfl

theorem NoStale_afterInsert (c : MemoryCache) (h : NoStale c) (k : String) (v : Iface)
    (hk : (index c).lookup k = none) : NoStale (afterInsert c k v) := by
  have hf := index_lookup_eq_find c h k
  rw [hk] at hf
  obtain ⟨hkn, ha, hfr, hp⟩ := h
  unfold NoStale
  rw [elems_afterInsert, index_afterInsert, nextAddr_afterInsert]
  refine ⟨?_, ?_, ?_, ?_⟩
  · rw [List.map_cons, List.nodup_cons]
    refine ⟨?_, hkn⟩
    intro hmem
    obtain ⟨x, hx, hxk⟩ := List.mem_map.1 hmem
    have := (List.find?_eq_none.1 hf.symm) x hx
    exact this (by simpa using hxk)
  · rw [List.map_cons, List.nodup_cons]
    refine ⟨?_, ha⟩
    intro hmem
    obtain ⟨x, hx, hxa⟩ := List.mem_map.1 hmem
    have := hfr x hx
    rw [hxa] at this
    exact lt_irrefl _ this
  · intro x hx
    rcases List.mem_cons.1 hx with hx | hx
    · subst hx
      exact Nat.lt_succ_self _
    · exact Nat.lt_succ_of_lt (hfr x hx)
  · unfold mapStore
    rw [filter_key_of_lookup_none _ k hk, List.map_cons]
    exact List.Perm.cons _ hp

theorem items_afterInsert (c : MemoryCache) (k : String) (v : Iface) :
    items (afterInsert c k v) = (k, v) :: items c := by
  unfold items
  rw [elems_afterInsert]
  rfl

theorem refTrim_not_over (N : Int) (bound : Nat) (m : RefLRU)
    (h : ¬ (0 < N ∧ (m.length : Int) > N)) : refTrim N bound m = m := by
  cases bound with
  | zero => rfl
  | succ b => simp only [refTrim, if_neg h]

theorem overCapacity_iff (c : MemoryCache) (h : NoStale c) :
    overCapacity c = true ↔ 0 < c.MaxItems ∧ ((items c).length : Int) > c.MaxItems := by
  unfold overCapacity
  rw [mapLen_eq_items c h]
  simp

theorem evictLoop_over_succ (fuel : Nat) (c c1 : MemoryCache) (hover : overCapacity c = true)
    (hs : evictStep c = some c1) : evictLoop (fuel + 1) c = evictLoop fuel c1 := by
  simp [evictLoop, hover, hs]

theorem refines_Set (N : Int) (fuel : Nat) (c : MemoryCache) (h : WF N c) (k : String)
    (v : Iface) (d : Int) (hk : (index c).lookup k = none) :
    ∃ c1, c.Set (fuel + 1) k v d = Outcome.done (none, c1) ∧ WF N c1 ∧
      refSet N (items c) k v = (Ret.Set none, items c1) := by
  obtain ⟨hM, hns, hb⟩ := h
  have hns0 := NoStale_afterInsert c hns k v hk
  have hM0 : (afterInsert c k v).MaxItems = N := (afterInsert_MaxItems c k v).trans hM
  have hit := items_afterInsert c k v
  have hov := overCapacity_iff _ hns0
  rw [hM0, hit] at hov
  rw [Set_eq]
  unfold refSet
  by_cases hover : overCapacity (afterInsert c k v) = true
  · -- one eviction, of the last element
    obtain ⟨hN, hlen⟩ := hov.1 hover
    have hbN := hb hN
    have hlen0 : (((k, v) :: items c).length : Int) = N + 1 := by
      have h1 : (((k, v) :: items c).length : Int) = ((elems c).length : Int) + 1 := by
        simp [items]
      rw [h1] at hlen ⊢
      omega
    obtain ⟨x, hx⟩ : ∃ x, (elems (afterInsert c k v)).getLast? = some x := by
      rw [elems_afterInsert]
      exact ⟨_, List.getLast?_eq_getLast _ (List.cons_ne_nil _ _)⟩
    obtain ⟨pre, hpre⟩ := List.getLast?_eq_some_iff.1 hx
    have hstep : evictStep (afterInsert c k v)
        = some (clearWhenLocked (afterInsert c k v) x.Value.key).2 := by
      unfold evictStep
      rw [bind_Back_eq]
      unfold Back
      rw [hx]
    have hel : elems (clearWhenLocked (afterInsert c k v) x.Value.key).2 = pre := by
      rw [elems_clearWhenLocked_key _ hns0, hpre]
      apply filter_key_concat
      rw [← hpre]
      exact hns0.1
    have hitems : items (clearWhenLocked (afterInsert c k v) x.Value.key).2
        = ((k, v) :: items c).dropLast := by
      rw [← hit]
      unfold items
      rw [hel, hpre, ← List.map_dropLast, List.dropLast_concat]
    have hns2 := NoStale_clearWhenLocked _ hns0 x.Value.key
    have hM2 : (clearWhenLocked (afterInsert c k v) x.Value.key).2.MaxItems = N :=
      (clearWhenLocked_MaxItems _ _).trans hM0
    have hlen2 : ((((k, v) :: items c).dropLast).length : Int) = N := by
      rw [List.length_dropLast]
      have hpos : 1 ≤ ((k, v) :: items c).length := by simp
      rw [Nat.cast_sub hpos, hlen0]
      simp
    have hnot : overCapacity (clearWhenLocked (afterInsert c k v) x.Value.key).2 = false := by
      cases ho : overCapacity (clearWhenLocked (afterInsert c k v) x.Value.key).2 with
      | false => rfl
      | true =>
        have := (overCapacity_iff _ hns2).1 ho
        rw [hM2, hitems, hlen2] at this
        exact absurd this.2 (lt_irrefl _)
    rw [evictLoop_over_succ fuel _ _ hover hstep, evictLoop_not_over fuel _ hnot]
    refine ⟨_, rfl, ⟨hM2, hns2, ?_⟩, ?_⟩
    · intro _
      have : (elems (clearWhenLocked (afterInsert c k v) x.Value.key).2).length
          = (((k, v) :: items c).dropLast).length := by
        rw [← hitems, items, List.length_map]
      rw [this, hlen2]
    · rw [hitems]
      have hcond : 0 < N ∧ (((k, v) :: items c).length : Int) > N := ⟨hN, hlen⟩
      have hsucc : ((k, v) :: items c).length = (items c).length + 1 := rfl
      rw [hsucc]
      simp only [refTrim, if_pos hcond]
      rw [refTrim_not_over]
      rw [hlen2]
      exact fun h => absurd h.2 (lt_irrefl _)
  · have hfalse : overCapacity (afterInsert c k v) = false := by
      cases ho : overCapacity (afterInsert c k v) with
      | false => rfl
      | true => exact absurd ho hover
    have hcond : ¬ (0 < N ∧ (((k, v) :: items c).length : Int) > N) :=
      fun hc => hover (hov.2 hc)
    rw [evictLoop_not_over _ _ hfalse, refTrim_not_over N _ _ hcond, ← hit]
    refine ⟨_, rfl, ⟨hM0, hns0, ?_⟩, rfl⟩
    intro hN
    have hl : ((elems (afterInsert c k v)).length : Int) = (((k, v) :: items c).length : Int) := by
      rw [← hit, items, List.length_map]
    rw [hl]
    by_contra hgt
    exact hcond ⟨hN, lt_of_not_le hgt⟩


theorem refines_run (N : Int) (fuel : Nat) :
    ∀ (calls : List Call) (c : MemoryCache), WF N c →
      noOverwrite (fuel + 1) c calls = true →
      runRets (fuel + 1) c calls = Outcome.done (refRun N (items c) calls) := by
  intro calls
  induction calls with
  | nil => intro c _ _; rfl
  | cons call rest ih =>
    intro c h hno
    unfold noOverwrite at hno
    rw [Bool.and_eq_true] at hno
    obtain ⟨hkey, hrest⟩ := hno
    cases call with
    | Get key =>
      obtain ⟨hwf, href⟩ := refines_Get N c h key
      simp only [applyCall] at hrest
      have := ih (c.Get key).2 hwf hrest
      simp only [runRets, callRet, refRun, refCall, href, this]
    | Clear key =>
      obtain ⟨hwf, href⟩ := refines_Clear N c h key
      simp only [applyCall] at hrest
      have := ih (c.Clear key).2 hwf hrest
      simp only [runRets, callRet, refRun, refCall, href, this]
    | Set key val d =>
      have hmiss : (index c).lookup key = none := by
        cases hl : (index c).lookup key with
        | none => rfl
        | some e =>
          have := (Get_found_iff c key).2 ⟨e, by rw [mapLookup_eq_index]; exact hl⟩
          simp [this] at hkey
      obtain ⟨c1, hset, hwf, href⟩ := refines_Set N fuel c h key val d hmiss
      simp only [applyCall, hset] at hrest
      have := ih c1 hwf hrest
      simp only [runRets, callRet, hset, refRun, refCall, href, this]

/-- C18. Refinement of a reference LRU when no key is overwritten: for every `MaxItems`
and every sequence of calls on a zero-valued engine in which no `Set` is applied to a key
that is present at that moment, every call returns as soon as the eviction loop may run
once, and the calls return exactly what the reference LRU returns (the list of key and
value pairs with `refGet`, `refSet`, `refClear`). -/
theorem C18_refines_reference_lru (N : Int) (fuel : Nat) (calls : List Call)
    (hno : noOverwrite (fuel + 1) (fresh N) calls = true) :
    runRets (fuel + 1) (fresh N) calls = Outcome.done (refRun N [] calls) :=
  refines_run N fuel calls (fresh N) (WF_fresh N) hno

/-- C18 on the calls of `TestMemoryCache_Capacity`, with `MaxItems = 3`. -/
theorem C18_refines_reference_lru_witness :
    noOverwrite (0 + 1) (fresh 3) capacityTest = true ∧
    runRets (0 + 1) (fresh 3) capacityTest = Outcome.done (refRun 3 [] capacityTest) :=
  ⟨by rfl, C18_refines_reference_lru 3 0 capacityTest (by rfl)⟩


end onecache
